import Mathlib

/-!
# Verification of the `mealy` package (acyclic Mealy-machine lexicon)

Shallow embedding of the Go package `mealy`: a minimal acyclic
finite-state recognizer for a sorted list of byte sequences, with
constrained enumeration and a binary serialization codec.

Bytes are modelled as `Nat` (Go `byte` values are `< 256`; where Go's
type system guarantees this, theorems carry it as a hypothesis).
Packed 32-bit transitions are modelled as `Nat` with explicit
modular arithmetic mirroring the Go bit operations.
Go channels become Lean lists (the builder consumes the channel to
exhaustion; the enumerator's output channel is the produced list).
Go `panic` sites are modelled as error results (`Except`/dedicated
constructors), so that "fails rather than returning" is statable.
-/

namespace Mealy

/-! ## Packed transitions (`mealy.go` / `serialize.go`)

Go: `type transition uint32`, fields packed as
8-bit trigger ∣ 1-bit terminal ∣ 23-bit destination. -/

/-- A packed transition; Go `transition` is `uint32`, modelled as `Nat`
(always `< 2^32` when produced by `NewTransition`). -/
abbrev transition := Nat

/-- The state type: an ordered list of packed transitions (Go `type state []transition`). -/
abbrev state := List transition

/-- A Recognizer is an indexed list of states (Go `type Recognizer []state`). -/
abbrev Recognizer := List state

/-- Go `NewTransition`: `t := uint32(trigger) << 24; if isTerminal { t |= 0x800000 }; t |= uint32(toStateId) & 0x7fffff`.
The or-ed fields occupy disjoint bit ranges, so the packing is a sum.
`trigger % 256` mirrors the Go `byte` argument type, `toStateId % 8388608`
the 23-bit mask (`& 0x7fffff`). -/
def NewTransition (trigger : Nat) (toStateId : Nat) (isTerminal : Bool) : transition :=
  (trigger % 256) * 16777216 + (if isTerminal then 8388608 else 0) + toStateId % 8388608

/-- Go `transition.Trigger`: `byte(t >> 24)`. -/
def Trigger (t : transition) : Nat :=
  t / 16777216 % 256

/-- Go `transition.ToState`: `int(t & 0x7fffff)`. -/
def ToState (t : transition) : Nat :=
  t % 8388608

/-- Go `transition.IsTerminal`: `(t & 0x800000) != 0`. -/
def IsTerminal (t : transition) : Bool :=
  t / 8388608 % 2 == 1

/-! ## State operations (`serialize.go`) -/

/-- Go `state.IsEmpty`. -/
def stateIsEmpty (s : state) : Bool := s.isEmpty

/-- First index of `s` (a sorted state) whose trigger is `≥ value`, else `s.length`.
This is the contract of Go's `sort.Search(len(s), fun x => s[x].Trigger() >= value)`
on the sorted transition lists the package maintains. -/
def searchTrigger (s : state) (value : Nat) : Nat :=
  match s with
  | [] => 0
  | t :: rest => if value ≤ Trigger t then 0 else searchTrigger rest value + 1

/-- Go `state.IndexForTrigger`: index of the transition with the given trigger,
or `len(s)` if absent. -/
def IndexForTrigger (s : state) (value : Nat) : Nat :=
  let i := searchTrigger s value
  if i < s.length ∧ Trigger (s.getD i 0) = value then i else s.length

/-- Go `state.AddTransition`: insert `t` into the sorted transition list,
keeping order, doing nothing if the exact packed value is present.
(The Go code finds the insertion point with `sort.Search`, appends, and
re-sorts the suffix; on the sorted lists it maintains this is exactly
ordered insertion without duplication.) -/
def AddTransition (s : state) (t : transition) : state :=
  match s with
  | [] => [t]
  | x :: xs => if x < t then x :: AddTransition xs t
               else if x = t then x :: xs
               else t :: x :: xs

/-! ## The builder (`FromChannel`, `mealy.go`) -/

/-- Build error, modelling `FromChannel`'s two `panic` sites. -/
inductive BuildError where
  /-- The ordering-violation panic: current value not strictly greater than the previous. -/
  | outOfOrder : BuildError
  /-- The start-id invariant panic: interned root not at index `len(self)-1`. -/
  | badStart : BuildError
deriving DecidableEq, Repr

/-- `bytes.Compare(a, b) < 0`: strict lexicographic order on byte sequences. -/
def lexLt : List Nat → List Nat → Bool
  | [], [] => false
  | [], _ :: _ => true
  | _ :: _, [] => false
  | a :: as, b :: bs => a < b || (a == b && lexLt as bs)

/-- Go `commonPrefixLen` (local function in `FromChannel`). -/
def commonPrefixLen : List Nat → List Nat → Nat
  | a :: as, b :: bs => if a = b then commonPrefixLen as bs + 1 else 0
  | _, _ => 0

/-- Go `makeState` (local function in `FromChannel`): find or create a state.
The Go code interns by the SHA-1 `Fingerprint` of the transition list; we
model the fingerprint by the transition list itself (the spec directs that
the digest be treated as a collision-free content identity), so lookup is
by content. Returns the id and the possibly-extended state list. -/
def makeState (self : List state) (s : state) : Nat × List state :=
  let id := self.indexOf s
  if id < self.length then (id, self) else (self.length, self ++ [s])

/-- The mutable build state of `FromChannel`. -/
structure BuildState where
  self : List state
  terminals : List Bool
  larvae : List state
  prevValue : List Nat
deriving Repr

/-- One iteration (at index `i`) of the loop in Go `makeSuffixStates`:
intern `larvae[i]` and attach to `larvae[i-1]` a transition triggered by
`prevValue[i-1]`, terminal iff `terminals[i]`. -/
def msStep (prevValue : List Nat) (terminals : List Bool)
    (sl : List state × List state) (i : Nat) : List state × List state :=
  let (self, larvae) := sl
  let (id, self') := makeState self (larvae.getD i [])
  let tr := NewTransition (prevValue.getD (i - 1) 0) id (terminals.getD i false)
  (self', larvae.set (i - 1) (AddTransition (larvae.getD (i - 1) []) tr))

/-- Go `makeSuffixStates(p)`: run `msStep` for `i` from the second argument
down to `p+1` (the Go loop `for i := len(prevValue); i > p; i--`). -/
def makeSuffixStates (prevValue : List Nat) (terminals : List Bool) (p : Nat) :
    Nat → List state × List state → List state × List state
  | 0, sl => sl
  | i + 1, sl =>
      if p < i + 1 then
        makeSuffixStates prevValue terminals p i (msStep prevValue terminals sl (i + 1))
      else sl

/-- The body of `FromChannel`'s `for value := range values` loop, for one value. -/
def addValue (st : BuildState) (value : List Nat) : Except BuildError BuildState :=
  if lexLt st.prevValue value then
    let p := commonPrefixLen st.prevValue value
    let (self', larvae') :=
      makeSuffixStates st.prevValue st.terminals p st.prevValue.length (st.self, st.larvae)
    let larvae'' := larvae'.take (p + 1) ++ List.replicate (value.length - p) []
    let terminals'' :=
      (st.terminals.take (p + 1) ++ List.replicate (value.length - p) false).set value.length true
    Except.ok ⟨self', terminals'', larvae'', value⟩
  else
    Except.error BuildError.outOfOrder

/-- Go `FromChannel`: build a Recognizer from an ordered list of values.
After the input is exhausted, freeze everything down to position 0 and
intern the root, checking it lands at index `len(self)-1`. -/
def FromChannel (values : List (List Nat)) : Except BuildError Recognizer :=
  match values.foldlM addValue ⟨[], [false], [[]], []⟩ with
  | Except.error e => Except.error e
  | Except.ok st =>
      let (self', larvae') :=
        makeSuffixStates st.prevValue st.terminals 0 st.prevValue.length (st.self, st.larvae)
      let (startId, self'') := makeState self' (larvae'.getD 0 [])
      if startId = self''.length - 1 then Except.ok self'' else Except.error BuildError.badStart

/-! ## Membership (`Recognizer.Recognizes`, `mealy.go`) -/

/-- The loop of Go `Recognizes`, carrying the running `tran` variable
(initially the `uint32` zero value). When a byte has no matching
transition the Go code `break`s and returns the terminal flag of the
**last followed** transition; the embedding preserves that behaviour. -/
def recognizesLoop (self : Recognizer) : state → transition → List Nat → Bool
  | _, tran, [] => IsTerminal tran
  | st, tran, v :: rest =>
      let found := IndexForTrigger st v
      if found < st.length then
        let tr := st.getD found 0
        recognizesLoop self (self.getD (ToState tr) []) tr rest
      else IsTerminal tran

/-- Go `Recognizer.Start`: the state at index `len(self)-1`. -/
def Start (self : Recognizer) : state :=
  self.getD (self.length - 1) []

/-- Go `Recognizer.Recognizes`. -/
def Recognizes (self : Recognizer) (value : List Nat) : Bool :=
  if self.length = 0 then false
  else recognizesLoop self (Start self) 0 value

/-! ## Constraints (`constraints.go`) -/

/-- The `Constraints` interface: four pure predicates. -/
structure Constraints where
  IsSmallEnough : Nat → Bool
  IsLargeEnough : Nat → Bool
  IsValueAllowed : Nat → Nat → Bool
  IsSequenceAllowed : List Nat → Bool

/-- `BaseConstraints`: a fully unconstrained implementation (all true). -/
def BaseConstraints : Constraints :=
  ⟨fun _ => true, fun _ => true, fun _ _ => true, fun _ => true⟩

/-- A length-window `Constraints` implementation: `IsLargeEnough n = (min ≤ n)`,
`IsSmallEnough n = (n ≤ max)`, the other two always true (the shape used by
the package's tests, e.g. `SizeConstraint`). -/
def windowCon (lo hi : Nat) : Constraints :=
  ⟨fun n => n ≤ hi, fun n => lo ≤ n, fun _ _ => true, fun _ => true⟩

/-! ## Constrained enumeration (`Recognizer.ConstrainedSequences`, `mealy.go`)

The Go traversal keeps an explicit stack `path` of `pathNode`s (a state
plus a cursor into its transition list); we model the stack with its top
frame first (`rpath` = reversed Go `path`), the depth of a frame being the
number of frames below it. The producing goroutine/channel pair becomes
the returned list. The main `for` loop is given fuel; `csFuel` is a
(generous) bound proven sufficient for the acyclic recognizers the
builder produces. -/

/-- Go `pathNode`: a state and a cursor into its transition list. -/
structure pathNode where
  s : state
  c : Nat
deriving Repr

/-- Go `pathNode.CurrentTransition` (`p.s[p.c]`). -/
def pathNode.CurrentTransition (p : pathNode) : transition :=
  p.s.getD p.c 0

/-- Go `pathNode.Exhausted` (`p.c >= len(p.s)`). -/
def pathNode.Exhausted (p : pathNode) : Bool :=
  p.s.length ≤ p.c

/-- Number of leading transitions of `l` whose trigger is disallowed. -/
def advCount (allowed : Nat → Bool) : List transition → Nat
  | [] => 0
  | t :: rest => if allowed (Trigger t) then 0 else advCount allowed rest + 1

/-- Go `pathNode.AdvanceUntilAllowed`: the first index `≥ c` whose trigger
satisfies `allowed`, else `len s` (or `c` itself if already past the end). -/
def advanceIdx (s : state) (allowed : Nat → Bool) (c : Nat) : Nat :=
  c + advCount allowed (s.drop c)

/-- The popping cascade of Go `popExhausted`, entered after the frame
above has just been popped: advance the new top frame (cursor `+1`, then
skip disallowed triggers at its depth); if it is exhausted too, pop it and
cascade.  `rpath` lists the top frame first, so the depth of a frame
equals the length of the list behind it. -/
def popCascade (con : Constraints) : List pathNode → List pathNode
  | [] => []
  | below :: rest =>
      let b : pathNode :=
        ⟨below.s, advanceIdx below.s (fun b => con.IsValueAllowed rest.length b) (below.c + 1)⟩
      if b.Exhausted then popCascade con rest else b :: rest

/-- Go local `popExhausted`: pop all exhausted top frames; each pop
advances the frame below, which may overflow it in turn. -/
def popExhausted (con : Constraints) : List pathNode → List pathNode
  | [] => []
  | top :: rest => if top.Exhausted then popCascade con rest else top :: rest

/-- Go local `getBytes`: the triggers of the current transitions along the
path, bottom frame first. -/
def getBytes (rpath : List pathNode) : List Nat :=
  rpath.reverse.map (fun p => Trigger p.CurrentTransition)

/-- The main loop of Go `ConstrainedSequences` (one fuel unit per iteration).
Each iteration: pop exhausted frames; emit the current path if its last
transition is terminal and passes `IsLargeEnough`/`IsSequenceAllowed`;
descend into the destination state if non-empty and `IsSmallEnough`
permits, otherwise advance the cursor; then skip disallowed triggers. -/
def csLoop (self : Recognizer) (con : Constraints) : Nat → List pathNode → List (List Nat)
  | 0, _ => []
  | fuel + 1, rpath =>
      match popExhausted con rpath with
      | [] => []
      | top :: rest =>
          let tr := top.CurrentTransition
          let emitted :=
            if IsTerminal tr && con.IsLargeEnough (rest.length + 1) then
              let b := getBytes (top :: rest)
              if con.IsSequenceAllowed b then [b] else []
            else []
          let nextState := self.getD (ToState tr) []
          let rpath' :=
            if !nextState.isEmpty && con.IsSmallEnough (rest.length + 2) then
              ⟨nextState,
                advanceIdx nextState (fun b => con.IsValueAllowed (rest.length + 1) b) 0⟩ ::
                top :: rest
            else
              ⟨top.s, advanceIdx top.s (fun b => con.IsValueAllowed rest.length b)
                  (top.c + 1)⟩ :: rest
          emitted ++ csLoop self con fuel rpath'

/-- Work bound for the traversal of the subtree under a state: one unit per
visited node plus one per edge, computed with fuel (`self.length + 1` is
always enough for the acyclic recognizers the builder produces). -/
def stWork (self : Recognizer) : Nat → state → Nat
  | 0, _ => 1
  | fuel + 1, st =>
      1 + st.foldr (fun tr acc => 1 + stWork self fuel (self.getD (ToState tr) []) + acc) 0

/-- Fuel sufficient for `csLoop` on the recognizers the builder produces. -/
def csFuel (self : Recognizer) : Nat :=
  2 * stWork self (self.length + 1) (Start self) + 2

/-- Go `Recognizer.ConstrainedSequences`: all recognized sequences
satisfying the constraints, in emission order. The initial stack holds one
frame at the start state, cursor advanced past disallowed triggers. -/
def ConstrainedSequences (self : Recognizer) (con : Constraints) : List (List Nat) :=
  csLoop self con (csFuel self)
    [⟨Start self, advanceIdx (Start self) (fun b => con.IsValueAllowed 0 b) 0⟩]

/-- Go `Recognizer.AllSequences`: alias for `ConstrainedSequences(BaseConstraints{})`. -/
def AllSequences (self : Recognizer) : List (List Nat) :=
  ConstrainedSequences self BaseConstraints

/-! ## Serialization (`serialize.go`)

The `io.Writer`/`io.Reader` become byte lists: `WriteTo` returns the bytes
written, `ReadFrom` parses a byte list. `binary.Read` into a fixed-size
value fails when the input is short; `ReadFrom`'s `make(Recognizer,
numStates)` with a negative `int32` count is a runtime panic, modelled by
a dedicated `aborted` result. -/

/-- The 6-byte magic `"MMeMv1"`. -/
def serializationPrefix : List Nat := [77, 77, 101, 77, 118, 49]

/-- Big-endian 4-byte encoding of a 32-bit value (Go `binary.Write` of
`uint32`/`int32`; wider values are reduced mod `2^32` as the Go conversion does). -/
def u32be (n : Nat) : List Nat :=
  [n / 16777216 % 256, n / 65536 % 256, n / 256 % 256, n % 256]

/-- Big-endian 4-byte decode. -/
def be4 (bs : List Nat) : Nat :=
  match bs with
  | [a, b, c, d] => ((a * 256 + b) * 256 + c) * 256 + d
  | _ => 0

/-- The transition payload of one state (`binary.Write(w, BigEndian, s)`):
each packed transition as 4 big-endian bytes. -/
def writeTransitions (s : state) : List Nat :=
  s.foldr (fun tr a2 => u32be tr ++ a2) []

/-- The per-state loop of `WriteTo`: a 1-byte transition count
(`byte(len(s))`), then the transitions. -/
def writeStates (m : Recognizer) : List Nat :=
  m.foldr (fun s acc => (s.length % 256) :: (writeTransitions s ++ acc)) []

/-- Go `Recognizer.WriteTo`: magic, `int32` state count, then per state a
1-byte transition count followed by the packed transitions, all big-endian. -/
def WriteTo (self : Recognizer) : List Nat :=
  serializationPrefix ++ u32be self.length ++ writeStates self

/-- Result of `ReadFrom`: success, a read error (`binary.Read` hit the end
of the input), or the `make`-with-negative-length runtime abort. -/
inductive ReadResult where
  | ok (self : Recognizer) : ReadResult
  | eofErr : ReadResult
  | aborted : ReadResult
deriving DecidableEq, Repr

/-- Read exactly `n` bytes (Go `binary.Read` of an `n`-byte value):
`none` when the input is shorter. -/
def readN (n : Nat) (input : List Nat) : Option (List Nat × List Nat) :=
  if n ≤ input.length then some (input.take n, input.drop n) else none

/-- Parse `n` packed transitions (the inner loop of `ReadFrom`). -/
def parseTransitions : Nat → List Nat → Option (List transition × List Nat)
  | 0, input => some ([], input)
  | n + 1, input =>
      match readN 4 input with
      | none => none
      | some (bs, rest) =>
          match parseTransitions n rest with
          | none => none
          | some (trs, rest') => some (be4 bs :: trs, rest')

/-- Parse `n` states (the outer loop of `ReadFrom`): a 1-byte transition
count, then the transitions. -/
def parseStates : Nat → List Nat → Option (List state × List Nat)
  | 0, input => some ([], input)
  | n + 1, input =>
      match readN 1 input with
      | none => none
      | some (cb, rest) =>
          match parseTransitions (cb.headD 0) rest with
          | none => none
          | some (trs, rest') =>
              match parseStates n rest' with
              | none => none
              | some (sts, rest'') => some (trs :: sts, rest'')

/-- Go `ReadFrom`: read (without comparing!) the 6 magic bytes, read the
`int32` state count — negative (high bit set) makes `make` panic
(`aborted`) — then read that many states. -/
def ReadFrom (input : List Nat) : ReadResult :=
  match readN 6 input with
  | none => ReadResult.eofErr
  | some (_, r1) =>
      match readN 4 r1 with
      | none => ReadResult.eofErr
      | some (cnt, r2) =>
          let v := be4 cnt
          if v < 2147483648 then
            match parseStates v r2 with
            | none => ReadResult.eofErr
            | some (sts, _) => ReadResult.ok sts
          else ReadResult.aborted

/-! ## Structural predicates used by the verification

`Wf` is the acyclicity invariant the builder maintains (every transition
of the state at index `j` points below `j`), `TrigMono` the sorted-state
invariant, and `Accepts` the per-transition acceptance semantics of the
automaton: a sequence is accepted from a state iff its bytes can be
followed along matching triggers, the last transition followed being
terminal.  `Reach1` is one-or-more-step graph reachability. -/

/-- Acyclicity: each transition of the state at index `j` points strictly below `j`. -/
def Wf (self : List state) : Prop :=
  ∀ j, ∀ tr ∈ self.getD j [], ToState tr < j

/-- Strictly increasing triggers (implies sorted packed values and at most
one outgoing edge per byte). -/
def TrigMono (s : state) : Prop :=
  s.Pairwise (fun a b => Trigger a < Trigger b)

/-- Acceptance from a state: follow one transition per byte, the last one
terminal.  (`self.getD · []` resolves destination ids.) -/
inductive Accepts (self : List state) : state → List Nat → Prop
  | last {st : state} {tr : transition} : tr ∈ st → IsTerminal tr = true →
      Accepts self st [Trigger tr]
  | step {st : state} {tr : transition} {rest : List Nat} : tr ∈ st → rest ≠ [] →
      Accepts self (self.getD (ToState tr) []) rest →
      Accepts self st (Trigger tr :: rest)

/-- Reachability (one or more transitions) from a state's content to a state id. -/
inductive Reach1 (self : List state) : state → Nat → Prop
  | direct {st : state} {tr : transition} : tr ∈ st → Reach1 self st (ToState tr)
  | via {st : state} {tr : transition} {q : Nat} : tr ∈ st →
      Reach1 self (self.getD (ToState tr) []) q → Reach1 self st q

/-- The master invariant of the builder state after consuming the value
list `C`.  `b.prevValue` is the last consumed value, the in-progress
states `b.larvae.getD i []` recognize exactly the already-frozen
extensions of `b.prevValue.take i`, and the interned list `b.self` is an
acyclic, sorted, reachable pool of 32-bit transitions. -/
structure BInv (C : List (List Nat)) (b : BuildState) : Prop where
  lenL : b.larvae.length = b.prevValue.length + 1
  lenT : b.terminals.length = b.prevValue.length + 1
  wf : Wf b.self
  wfL : ∀ i, ∀ tr ∈ b.larvae.getD i [], ToState tr < b.self.length
  reach : ∀ q, q < b.self.length → ∃ i, i < b.larvae.length ∧
    Reach1 b.self (b.larvae.getD i []) q
  mem : ∀ w ∈ C, w ≠ [] ∧ (lexLt w b.prevValue = true ∨ w = b.prevValue)
  bytes : ∀ w ∈ C, ∀ x ∈ w, x < 256
  prevBytes : ∀ x ∈ b.prevValue, x < 256
  count : b.self.length + b.prevValue.length ≤ (C.map List.length).sum
  trig : ∀ i, ∀ tr ∈ b.larvae.getD i [], Trigger tr < b.prevValue.getD i 0
  sortL : ∀ i, TrigMono (b.larvae.getD i [])
  sortS : ∀ j, TrigMono (b.self.getD j [])
  t32L : ∀ i, ∀ tr ∈ b.larvae.getD i [], tr < 4294967296
  t32S : ∀ j, ∀ tr ∈ b.self.getD j [], tr < 4294967296
  term : ∀ i, i ≤ b.prevValue.length →
    (b.terminals.getD i false = true ↔ b.prevValue.take i ∈ C)
  lang : ∀ i, i ≤ b.prevValue.length → ∀ s,
    Accepts b.self (b.larvae.getD i []) s ↔
      (s ≠ [] ∧ (b.prevValue.take i ++ s) ∈ C ∧ s.headD 0 < b.prevValue.getD i 0)

/-- The invariant of the `makeSuffixStates` loop, at loop counter `i`
(indices `i+1 … prevValue.length` already processed, counting down).
For unprocessed positions `j < i` the larva still awaits its final
transition, so it recognizes only the frozen branches strictly below the
byte `prev[j]`; processed positions recognize every stored extension of
their prefix.  `chain` records the freshly added edge from each processed
larva to the interned copy of the larva above it; `B` bounds the growth of
the interned pool. -/
structure MInv (C : List (List Nat)) (prev : List Nat) (B i : Nat)
    (self larvae : List state) : Prop where
  lenL : larvae.length = prev.length + 1
  wf : Wf self
  wfL : ∀ j, ∀ tr ∈ larvae.getD j [], ToState tr < self.length
  reach : ∀ q, q < self.length → ∃ j, j < larvae.length ∧
    Reach1 self (larvae.getD j []) q
  trigLow : ∀ j, j < i → ∀ tr ∈ larvae.getD j [], Trigger tr < prev.getD j 0
  trigHigh : ∀ j, i ≤ j → ∀ tr ∈ larvae.getD j [], Trigger tr ≤ prev.getD j 0
  sortL : ∀ j, TrigMono (larvae.getD j [])
  sortS : ∀ j, TrigMono (self.getD j [])
  t32L : ∀ j, ∀ tr ∈ larvae.getD j [], tr < 4294967296
  t32S : ∀ j, ∀ tr ∈ self.getD j [], tr < 4294967296
  langLow : ∀ j, j < i → j ≤ prev.length → ∀ s,
    Accepts self (larvae.getD j []) s ↔
      (s ≠ [] ∧ (prev.take j ++ s) ∈ C ∧ s.headD 0 < prev.getD j 0)
  langHigh : ∀ j, i ≤ j → j ≤ prev.length → ∀ s,
    Accepts self (larvae.getD j []) s ↔ (s ≠ [] ∧ (prev.take j ++ s) ∈ C)
  chain : ∀ j, i ≤ j → j + 1 ≤ prev.length →
    ∃ tr ∈ larvae.getD j [], self.getD (ToState tr) [] = larvae.getD (j + 1) []
  tip : larvae.getD prev.length [] = []
  count : self.length + i ≤ B + prev.length

/-- Recursive reference form of the traversal loop: the sequences emitted
below a state, depth-first in stored transition order.  For each allowed
transition in order: first the current path if the transition is terminal
and passes the length/sequence gates, then the subtree of its destination
if that is non-empty and one more level passes `IsSmallEnough`.  `fuel`
decreases at each descent; `self.length + 1` is enough for `Wf`
recognizers.  `csLoop` is proven equal to this. -/
def seqState (self : Recognizer) (con : Constraints) : Nat → Nat → List Nat → state → List (List Nat)
  | 0, _, _, _ => []
  | fuel + 1, d, pre, st =>
      st.foldr (fun tr acc =>
        (if con.IsValueAllowed d (Trigger tr) then
          (if IsTerminal tr && con.IsLargeEnough (d + 1) &&
              con.IsSequenceAllowed (pre ++ [Trigger tr]) then [pre ++ [Trigger tr]] else []) ++
          (if !(self.getD (ToState tr) []).isEmpty && con.IsSmallEnough (d + 2) then
            seqState self con fuel (d + 1) (pre ++ [Trigger tr]) (self.getD (ToState tr) [])
          else [])
        else []) ++ acc) []

/-- Iteration count of the main loop while draining the subtrees below a
state: one iteration per transition processed (the pops are absorbed into
the iteration that follows them). -/
def seqCost (self : Recognizer) : Nat → state → Nat
  | 0, _ => 0
  | fuel + 1, st =>
      st.foldr (fun tr acc => 1 + seqCost self fuel (self.getD (ToState tr) []) + acc) 0

/-- Iterations left in the frames below the top one: each resumes past its
current transition once the frame above it pops. -/
def restCost (self : Recognizer) : List pathNode → Nat
  | [] => 0
  | p :: r => seqCost self (self.length + 1) (p.s.drop (p.c + 1)) + restCost self r

/-- Iterations needed to drain a whole stack. -/
def stackCost (self : Recognizer) : List pathNode → Nat
  | [] => 0
  | top :: rest => seqCost self (self.length + 1) (top.s.drop top.c) + restCost self rest

/-- Reference output of the continuation held in the frames below the top
frame, top first: each frame, once reached again, resumes after its
current transition at its own depth and prefix. -/
def restSeq (self : Recognizer) (con : Constraints) : List pathNode → List (List Nat)
  | [] => []
  | p :: r =>
      seqState self con (self.length + 1) r.length (getBytes r) (p.s.drop (p.c + 1)) ++
        restSeq self con r

/-- Reference output of a whole stack: the remaining transitions of the
top frame, then the continuations below. -/
def stackSeq (self : Recognizer) (con : Constraints) : List pathNode → List (List Nat)
  | [] => []
  | top :: rest =>
      seqState self con (self.length + 1) rest.length (getBytes rest) (top.s.drop top.c) ++
        restSeq self con rest

/-- Every frame state on the stack has its destinations inside the pool
(holds along the traversal of a `Wf` recognizer). -/
def StackOk (self : Recognizer) (rpath : List pathNode) : Prop :=
  ∀ p ∈ rpath, ∀ tr ∈ p.s, ToState tr < self.length

/-! ## Basic facts about the packed-transition codec -/

/-- Decoding the trigger of a freshly packed transition. -/
theorem Trigger_NewTransition (b d : Nat) (f : Bool) (hb : b < 256) :
    Trigger (NewTransition b d f) = b := by
  unfold Trigger NewTransition
  cases f
  · show (b % 256 * 16777216 + 0 + d % 8388608) / 16777216 % 256 = b
    omega
  · show (b % 256 * 16777216 + 8388608 + d % 8388608) / 16777216 % 256 = b
    omega

/-- Decoding the terminal flag of a freshly packed transition. -/
theorem IsTerminal_NewTransition (b d : Nat) (f : Bool) :
    IsTerminal (NewTransition b d f) = f := by
  unfold IsTerminal NewTransition
  cases f
  · show ((b % 256 * 16777216 + 0 + d % 8388608) / 8388608 % 2 == 1) = false
    simp only [beq_eq_false_iff_ne, ne_eq]
    omega
  · show ((b % 256 * 16777216 + 8388608 + d % 8388608) / 8388608 % 2 == 1) = true
    simp only [beq_iff_eq]
    omega

/-- Decoding the destination of a freshly packed transition: the 23-bit
mask reduces it modulo `2^23`, silently. -/
theorem ToState_NewTransition (b d : Nat) (f : Bool) :
    ToState (NewTransition b d f) = d % 8388608 := by
  unfold ToState NewTransition
  cases f
  · show (b % 256 * 16777216 + 0 + d % 8388608) % 8388608 = d % 8388608
    omega
  · show (b % 256 * 16777216 + 8388608 + d % 8388608) % 8388608 = d % 8388608
    omega

/-- Packed values are 32-bit. -/
theorem NewTransition_lt (b d : Nat) (f : Bool) : NewTransition b d f < 4294967296 := by
  unfold NewTransition
  cases f
  · show b % 256 * 16777216 + 0 + d % 8388608 < 4294967296
    omega
  · show b % 256 * 16777216 + 8388608 + d % 8388608 < 4294967296
    omega

/-- Unsigned numeric order on 32-bit packed values refines trigger order. -/
theorem lt_of_Trigger_lt {t₁ t₂ : Nat} (h₁ : t₁ < 4294967296)
    (h₂ : t₂ < 4294967296) (h : Trigger t₁ < Trigger t₂) : t₁ < t₂ := by
  unfold Trigger at h
  have e1 : t₁ / 16777216 < 256 := by omega
  have e2 : t₂ / 16777216 < 256 := by omega
  rw [Nat.mod_eq_of_lt e1, Nat.mod_eq_of_lt e2] at h
  omega

/-! ## Claim C7: packed transition codec -/

/-- **C7.** For every trigger byte `b` (< 256), terminal flag `f`, and
destination `d`, the packed transition decodes to its fields — exactly when
`d < 2^23`, and reduced `mod 2^23` with no error otherwise — and unsigned
numeric order of 32-bit packed values agrees with trigger-first order. -/
theorem C7_transition_codec (b d : Nat) (f : Bool) (hb : b < 256) :
    Trigger (NewTransition b d f) = b ∧
    IsTerminal (NewTransition b d f) = f ∧
    (d < 8388608 → ToState (NewTransition b d f) = d) ∧
    ToState (NewTransition b d f) = d % 8388608 ∧
    (∀ t₁ t₂ : Nat, t₁ < 4294967296 → t₂ < 4294967296 →
      Trigger t₁ < Trigger t₂ → t₁ < t₂) := by
  refine ⟨Trigger_NewTransition b d f hb, IsTerminal_NewTransition b d f, ?_,
    ToState_NewTransition b d f, fun t₁ t₂ h₁ h₂ h => lt_of_Trigger_lt h₁ h₂ h⟩
  intro hd
  rw [ToState_NewTransition, Nat.mod_eq_of_lt hd]

/-- Witness for C7 at `b = 65`, `d = 3`, `f = true`. -/
theorem C7_transition_codec_witness :
    Trigger (NewTransition 65 3 true) = 65 ∧
    IsTerminal (NewTransition 65 3 true) = true ∧
    (3 < 8388608 → ToState (NewTransition 65 3 true) = 3) ∧
    ToState (NewTransition 65 3 true) = 3 % 8388608 ∧
    (∀ t₁ t₂ : Nat, t₁ < 4294967296 → t₂ < 4294967296 →
      Trigger t₁ < Trigger t₂ → t₁ < t₂) :=
  C7_transition_codec 65 3 true (by decide)

/-! ## Claim C1: membership exactness fails in the code

`Recognizes` tracks the last followed transition in `tran`; when a byte
has no matching transition the loop `break`s and returns `tran`'s terminal
flag instead of rejecting.  So after following the terminal transition for
a stored sequence, any continuation that immediately leaves the automaton
is still accepted: with `S = {"A"}`, the two-byte input `"AX"` (bytes
`[65, 88]`) is accepted even though it is not in `S` and its byte `88` has
no matching transition. -/

/-- **C1 (failing evaluation).** Building from `S = {[65]}` and running
`Recognizes` on `[65, 88]` (a sequence outside `S` whose second byte has
no matching transition) returns `true`: membership exactness and
"absent transition ⇒ reject" both fail on the code. -/
theorem C1_recognizes_accepts_nonmember :
    FromChannel [[65]] = Except.ok [[], [NewTransition 65 0 true]] ∧
    Recognizes [[], [NewTransition 65 0 true]] [65, 88] = true ∧
    [65, 88] ∉ [[65]] :=
  ⟨rfl, rfl, by decide⟩

/-! ## Claim C9: empty input -/

/-- **C9.** `FromChannel` on an input channel that closes without any value
returns a Recognizer with exactly one state, with zero transitions, which
is the start state; it recognizes no sequence, and its unconstrained
enumeration emits nothing. -/
theorem C9_empty_input :
    FromChannel [] = Except.ok [[]] ∧
    Start [[]] = [] ∧
    (∀ x : List Nat, Recognizes [[]] x = false) ∧
    AllSequences [[]] = [] := by
  refine ⟨rfl, rfl, ?_, rfl⟩
  intro x
  cases x with
  | nil => rfl
  | cons v rest =>
      simp [Recognizes, recognizesLoop, IndexForTrigger, searchTrigger, Start, IsTerminal]

/-- Witness for C9's universally quantified part at `x = [65]`. -/
theorem C9_empty_input_witness : Recognizes [[]] [65] = false :=
  C9_empty_input.2.2.1 [65]

/-! ## Claim C10: negative state count aborts instead of erroring -/

/-- **C10.** A well-formed 6-byte magic prefix followed by the big-endian
`int32` `0xFFFFFFFF` (state count `-1`) makes `ReadFrom` abort (the Go
`make(Recognizer, numStates)` panics on а negative length); no error value
is returned. -/
theorem C10_negative_count_aborts :
    ReadFrom (serializationPrefix ++ [255, 255, 255, 255]) = ReadResult.aborted := by
  rfl

/-! ## Serialization: codec lemmas -/

/-- Big-endian 4-byte encode/decode round trip on 32-bit values. -/
theorem be4_u32be {n : Nat} (h : n < 4294967296) : be4 (u32be n) = n := by
  show ((n / 16777216 % 256 * 256 + n / 65536 % 256) * 256 + n / 256 % 256) * 256 + n % 256 = n
  omega

theorem u32be_length (n : Nat) : (u32be n).length = 4 := rfl

/-- `binary.Read` of an `n`-byte value consumes exactly the first `n` bytes. -/
theorem readN_append {n : Nat} (l r : List Nat) (h : l.length = n) :
    readN n (l ++ r) = some (l, r) := by
  subst h
  unfold readN
  rw [if_pos (by simp), List.take_left, List.drop_left]

/-- `binary.Read` fails on a short input. -/
theorem readN_short {n : Nat} {input : List Nat} (h : input.length < n) :
    readN n input = none := by
  unfold readN
  rw [if_neg (by omega)]

theorem writeTransitions_cons (t : transition) (s : state) :
    writeTransitions (t :: s) = u32be t ++ writeTransitions s := rfl

theorem writeTransitions_length (s : state) :
    (writeTransitions s).length = 4 * s.length := by
  induction s with
  | nil => rfl
  | cons t s ih => simp [writeTransitions_cons, ih, u32be_length]; omega

/-- Parsing the transition payload of a state recovers it exactly and
consumes exactly its bytes. -/
theorem parseTransitions_writeTransitions (s : state) (r : List Nat)
    (h : ∀ t ∈ s, t < 4294967296) :
    parseTransitions s.length (writeTransitions s ++ r) = some (s, r) := by
  induction s with
  | nil => rfl
  | cons t s ih =>
      have ht : t < 4294967296 := h t (by simp)
      rw [writeTransitions_cons, List.append_assoc]
      show parseTransitions (s.length + 1) (u32be t ++ (writeTransitions s ++ r)) = _
      unfold parseTransitions
      simp only [readN_append _ _ (u32be_length t),
        ih (fun x hx => h x (by simp [hx])), be4_u32be ht]

/-- Parsing `n` transitions fails on fewer than `4n` bytes. -/
theorem parseTransitions_short : ∀ (n : Nat) (input : List Nat),
    input.length < 4 * n → parseTransitions n input = none := by
  intro n
  induction n with
  | zero => intro input h; omega
  | succ n ih =>
      intro input h
      unfold parseTransitions
      by_cases h4 : input.length < 4
      · rw [readN_short h4]
      · simp only [show readN 4 input = some (input.take 4, input.drop 4) from by
            unfold readN; rw [if_pos (by omega)],
          ih (input.drop 4) (by simp; omega)]

theorem writeStates_cons (s : state) (m : Recognizer) :
    writeStates (s :: m) = (s.length % 256) :: (writeTransitions s ++ writeStates m) := rfl

/-- Parsing the state section recovers the states exactly and consumes
exactly their bytes. -/
theorem parseStates_writeStates (m : Recognizer) (r : List Nat)
    (hlen : ∀ s ∈ m, s.length ≤ 255) (htr : ∀ s ∈ m, ∀ t ∈ s, t < 4294967296) :
    parseStates m.length (writeStates m ++ r) = some (m, r) := by
  induction m with
  | nil => rfl
  | cons s m ih =>
      have hs : s.length ≤ 255 := hlen s (by simp)
      rw [writeStates_cons]
      show parseStates (m.length + 1)
        (((s.length % 256) :: (writeTransitions s ++ writeStates m)) ++ r) = _
      unfold parseStates
      rw [show ((s.length % 256) :: (writeTransitions s ++ writeStates m)) ++ r
            = [s.length % 256] ++ ((writeTransitions s ++ writeStates m) ++ r) from by simp]
      have hmod : [s.length % 256].headD 0 = s.length := by
        simp [Nat.mod_eq_of_lt (by omega : s.length < 256)]
      simp only [@readN_append 1 [s.length % 256] _ rfl, hmod, List.append_assoc,
        parseTransitions_writeTransitions s _ (htr s (by simp)),
        ih (fun x hx => hlen x (by simp [hx])) (fun x hx => htr x (by simp [hx]))]

/-! ## Claim C3: serialization round trip -/

/-- **C3.** For every Recognizer whose state count fits in a signed 32-bit
integer and whose states each hold at most 255 transitions (32-bit packed
values, as the Go `transition` type guarantees), decoding the encoding
yields the same Recognizer, state for state, in the same array order. -/
theorem C3_serialization_round_trip (m : Recognizer)
    (hcount : m.length < 2147483648)
    (hlen : ∀ s ∈ m, s.length ≤ 255)
    (htr : ∀ s ∈ m, ∀ t ∈ s, t < 4294967296) :
    ReadFrom (WriteTo m) = ReadResult.ok m := by
  unfold ReadFrom WriteTo
  have hv : be4 (u32be m.length) = m.length := be4_u32be (by omega)
  have hws : writeStates m = writeStates m ++ [] := by simp
  rw [List.append_assoc]
  simp only [@readN_append 6 serializationPrefix _ rfl,
    @readN_append 4 (u32be m.length) _ rfl, hv, if_pos hcount]
  rw [hws, parseStates_writeStates m [] hlen htr]

/-- Witness for C3 on the machine built from `{[65]}`. -/
theorem C3_serialization_round_trip_witness :
    ReadFrom (WriteTo [[], [NewTransition 65 0 true]]) =
      ReadResult.ok [[], [NewTransition 65 0 true]] :=
  C3_serialization_round_trip _ (by decide) (by decide) (by decide)

/-! ## Claim C4: malformed input handling

`ReadFrom` reads the 6 magic bytes but never compares them with
`serializationPrefix`, so a wrong magic alone causes no error; only a
short (truncated) read surfaces one. -/

/-- **C4 (counterexample).** An input whose first 6 bytes are all zero
(not the magic tag) followed by a zero state count parses successfully:
no format error is surfaced on a magic mismatch. -/
theorem C4_magic_not_checked :
    ReadFrom [0, 0, 0, 0, 0, 0, 0, 0, 0, 0] = ReadResult.ok [] ∧
    [0, 0, 0, 0, 0, 0] ≠ serializationPrefix :=
  ⟨rfl, by decide⟩

/-- Parsing the state section of a truncated encoding fails. -/
theorem parseStates_take_none (m : Recognizer)
    (hlen : ∀ s ∈ m, s.length ≤ 255) (htr : ∀ s ∈ m, ∀ t ∈ s, t < 4294967296) :
    ∀ k, k < (writeStates m).length →
      parseStates m.length ((writeStates m).take k) = none := by
  induction m with
  | nil => intro k hk; simp [writeStates] at hk
  | cons s m ih =>
      intro k hk
      rw [writeStates_cons] at hk ⊢
      match k with
      | 0 =>
          show parseStates (m.length + 1) [] = none
          unfold parseStates
          rw [readN_short (by simp)]
      | j + 1 =>
          rw [List.take_succ_cons]
          show parseStates (m.length + 1) _ = none
          unfold parseStates
          have hj : j < (writeTransitions s ++ writeStates m).length := by
            simp at hk ⊢; omega
          have hmod : s.length % 256 = s.length :=
            Nat.mod_eq_of_lt (by have := hlen s (by simp); omega)
          rw [show (s.length % 256) :: (writeTransitions s ++ writeStates m).take j
                = [s.length % 256] ++ (writeTransitions s ++ writeStates m).take j from rfl]
          simp only [@readN_append 1 [s.length % 256] _ rfl]
          show (match parseTransitions ([s.length % 256].headD 0)
                  ((writeTransitions s ++ writeStates m).take j) with
                | none => none
                | some (trs, rest') =>
                  match parseStates m.length rest' with
                  | none => none
                  | some (sts, rest'') => some (trs :: sts, rest'')) = none
          rw [show [s.length % 256].headD 0 = s.length from by simp [hmod]]
          by_cases hsplit : j < 4 * s.length
          · rw [parseTransitions_short s.length _ (by simp; omega)]
          · rw [List.take_append_eq_append_take,
              List.take_of_length_le (by rw [writeTransitions_length]; omega),
              writeTransitions_length,
              parseTransitions_writeTransitions s _ (htr s (by simp))]
            have hlt : j - 4 * s.length < (writeStates m).length := by
              rw [List.length_append, writeTransitions_length] at hj; omega
            simp only [ih (fun x hx => hlen x (by simp [hx]))
              (fun x hx => htr x (by simp [hx])) _ hlt]

/-- **C4 (amended).** Truncated input — shorter than the 10-byte header,
or any proper prefix of a valid encoding — surfaces a read error to the
caller and does not crash; the magic bytes are consumed without being
compared (see the counterexample), so a wrong magic alone causes no error. -/
theorem C4_truncated_errors :
    (∀ input : List Nat, input.length < 10 → ReadFrom input = ReadResult.eofErr) ∧
    (∀ m : Recognizer, m.length < 2147483648 → (∀ s ∈ m, s.length ≤ 255) →
      (∀ s ∈ m, ∀ t ∈ s, t < 4294967296) →
      ∀ k, k < (WriteTo m).length → ReadFrom ((WriteTo m).take k) = ReadResult.eofErr) := by
  constructor
  · intro input h
    unfold ReadFrom
    by_cases h6 : input.length < 6
    · rw [readN_short h6]
    · rw [show readN 6 input = some (input.take 6, input.drop 6) from by
          unfold readN; rw [if_pos (by omega)]]
      show (match readN 4 (input.drop 6) with
            | none => ReadResult.eofErr
            | some (cnt, r2) => _) = ReadResult.eofErr
      rw [readN_short (by simp; omega)]
  · intro m hcount hlen htr k hk
    have hwt : WriteTo m = serializationPrefix ++ (u32be m.length ++ writeStates m) := by
      unfold WriteTo; rw [List.append_assoc]
    have hwtlen : (WriteTo m).length = 10 + (writeStates m).length := by
      rw [hwt]; simp [u32be, serializationPrefix]; omega
    unfold ReadFrom
    by_cases h6 : k < 6
    · rw [readN_short (by simp [hwt]; omega)]
    · rw [hwt, List.take_append_eq_append_take,
        List.take_of_length_le (by simp [serializationPrefix]; omega)]
      simp only [@readN_append 6 serializationPrefix _ rfl]
      rw [show (serializationPrefix : List Nat).length = 6 from rfl]
      by_cases h10 : k < 10
      · show (match readN 4 ((u32be m.length ++ writeStates m).take (k - 6)) with
              | none => ReadResult.eofErr
              | some (cnt, r2) => _) = ReadResult.eofErr
        rw [readN_short (by
          rw [List.length_take]
          rw [hwt] at hk
          simp [serializationPrefix] at hk
          omega)]
      · rw [List.take_append_eq_append_take,
          List.take_of_length_le (by rw [u32be_length]; omega), u32be_length]
        simp only [@readN_append 4 (u32be m.length) _ rfl,
          be4_u32be (show m.length < 4294967296 by omega), if_pos hcount]
        have hlt : k - 6 - 4 < (writeStates m).length := by omega
        rw [parseStates_take_none m hlen htr _ hlt]

/-- Witness for C4's amended statement: a 1-byte input, and the encoding of
the one-state empty machine truncated to 10 of its 11 bytes. -/
theorem C4_truncated_errors_witness :
    ReadFrom [77] = ReadResult.eofErr ∧
    ReadFrom ((WriteTo [[]]).take 10) = ReadResult.eofErr :=
  ⟨C4_truncated_errors.1 [77] (by decide),
   C4_truncated_errors.2 [[]] (by decide) (by decide) (by decide) 10 (by decide)⟩

/-! ## Claim C5: ordering precondition -/

/-- `addValue` can only fail with the ordering violation. -/
theorem addValue_error_eq {st : BuildState} {v : List Nat} {e : BuildError}
    (h : addValue st v = Except.error e) : e = BuildError.outOfOrder := by
  unfold addValue at h
  by_cases hlt : lexLt st.prevValue v = true
  · rw [if_pos hlt] at h; cases h
  · rw [if_neg hlt] at h; cases h; rfl

/-- A successful `addValue` records the new value as `prevValue`. -/
theorem addValue_ok_prev {st st' : BuildState} {v : List Nat}
    (h : addValue st v = Except.ok st') : st'.prevValue = v := by
  unfold addValue at h
  by_cases hlt : lexLt st.prevValue v = true
  · rw [if_pos hlt] at h; cases h; rfl
  · rw [if_neg hlt] at h; cases h

theorem foldlM_addValue_cons (st : BuildState) (v : List Nat) (l : List (List Nat)) :
    List.foldlM addValue st (v :: l) =
      (addValue st v >>= fun s => List.foldlM addValue s l) := rfl

/-- The build fold fails with the ordering violation whenever the input
contains an adjacent non-ascending pair, from any intermediate state. -/
theorem foldlM_addValue_out_of_order (u w : List Nat) (post : List (List Nat))
    (hbad : lexLt u w = false) :
    ∀ (pre : List (List Nat)) (st : BuildState),
      List.foldlM addValue st (pre ++ u :: w :: post) = Except.error BuildError.outOfOrder := by
  intro pre
  induction pre with
  | nil =>
      intro st
      rw [List.nil_append, foldlM_addValue_cons]
      cases h : addValue st u with
      | error e => rw [addValue_error_eq h]; rfl
      | ok st' =>
          show List.foldlM addValue st' (w :: post) = _
          rw [foldlM_addValue_cons]
          have hw : addValue st' w = Except.error BuildError.outOfOrder := by
            unfold addValue
            rw [addValue_ok_prev h, hbad]
            rfl
          rw [hw]
          rfl
  | cons x pre ih =>
      intro st
      rw [List.cons_append, foldlM_addValue_cons]
      cases h : addValue st x with
      | error e => rw [addValue_error_eq h]; rfl
      | ok st' => exact ih st'

/-- **C5.** If some input item is not strictly greater (lexicographically)
than the previous one — duplicates included — `FromChannel` fails with the
ordering violation at that item: the result is the `outOfOrder` error and
carries no partial Recognizer. -/
theorem C5_out_of_order_fails (pre post : List (List Nat)) (u w : List Nat)
    (hbad : lexLt u w = false) :
    FromChannel (pre ++ u :: w :: post) = Except.error BuildError.outOfOrder := by
  unfold FromChannel
  rw [foldlM_addValue_out_of_order u w post hbad pre]

/-- Witness for C5: an exact duplicate `[65], [65]`. -/
theorem C5_out_of_order_fails_witness :
    FromChannel [[65], [65]] = Except.error BuildError.outOfOrder :=
  C5_out_of_order_fails [] [] [65] [65] (by decide)

/-! ## Lexicographic-order toolkit (`bytes.Compare` as `lexLt`) -/

theorem lexLt_nil_right (a : List Nat) : lexLt a [] = false := by
  cases a <;> rfl

theorem lexLt_nil_left {b : List Nat} (h : b ≠ []) : lexLt [] b = true := by
  cases b with
  | nil => exact absurd rfl h
  | cons x t => rfl

theorem ne_nil_of_lexLt {a b : List Nat} (h : lexLt a b = true) : b ≠ [] := by
  intro hb
  rw [hb, lexLt_nil_right] at h
  cases h

theorem lexLt_cons_cons (a b : Nat) (s t : List Nat) :
    lexLt (a :: s) (b :: t) = (a < b || (a == b && lexLt s t)) := rfl

theorem lexLt_irrefl (l : List Nat) : lexLt l l = false := by
  induction l with
  | nil => rfl
  | cons a s ih => simp [lexLt_cons_cons, ih]

theorem ne_of_lexLt {a b : List Nat} (h : lexLt a b = true) : a ≠ b := by
  intro he
  rw [he, lexLt_irrefl] at h
  cases h

theorem lexLt_trans : ∀ {a b c : List Nat},
    lexLt a b = true → lexLt b c = true → lexLt a c = true := by
  intro a
  induction a with
  | nil =>
      intro b c hab hbc
      cases b with
      | nil => cases hab
      | cons y t =>
          cases c with
          | nil => cases hbc
          | cons z u => rfl
  | cons x s ih =>
      intro b c hab hbc
      cases b with
      | nil => cases hab
      | cons y t =>
          cases c with
          | nil => cases hbc
          | cons z u =>
              rw [lexLt_cons_cons] at hab hbc ⊢
              simp only [Bool.or_eq_true, Bool.and_eq_true, beq_iff_eq,
                decide_eq_true_eq] at hab hbc ⊢
              rcases hab with h1 | ⟨rfl, h1⟩
              · rcases hbc with h2 | ⟨rfl, h2⟩
                · exact Or.inl (by omega)
                · exact Or.inl h1
              · rcases hbc with h2 | ⟨rfl, h2⟩
                · exact Or.inl h2
                · exact Or.inr ⟨rfl, ih h1 h2⟩

/-- A common prefix cancels on both sides of the comparison. -/
theorem lexLt_append_same (t a b : List Nat) :
    lexLt (t ++ a) (t ++ b) = lexLt a b := by
  induction t with
  | nil => rfl
  | cons x s ih => simp [lexLt_cons_cons, ih]

theorem lexLt_le_trans {a b c : List Nat} (h1 : lexLt a b = true ∨ a = b)
    (h2 : lexLt b c = true) : lexLt a c = true := by
  rcases h1 with h1 | rfl
  · exact lexLt_trans h1 h2
  · exact h2

/-! ### `commonPrefixLen` facts -/

theorem cpl_le_left : ∀ a b : List Nat, commonPrefixLen a b ≤ a.length := by
  intro a
  induction a with
  | nil => intro b; cases b <;> simp [commonPrefixLen]
  | cons x s ih =>
      intro b
      cases b with
      | nil => simp [commonPrefixLen]
      | cons y t =>
          by_cases h : x = y <;> simp [commonPrefixLen, h]
          exact ih t

theorem cpl_le_right : ∀ a b : List Nat, commonPrefixLen a b ≤ b.length := by
  intro a
  induction a with
  | nil => intro b; cases b <;> simp [commonPrefixLen]
  | cons x s ih =>
      intro b
      cases b with
      | nil => simp [commonPrefixLen]
      | cons y t =>
          by_cases h : x = y <;> simp [commonPrefixLen, h]
          exact ih t

theorem cpl_take : ∀ a b : List Nat,
    a.take (commonPrefixLen a b) = b.take (commonPrefixLen a b) := by
  intro a
  induction a with
  | nil => intro b; cases b <;> simp [commonPrefixLen]
  | cons x s ih =>
      intro b
      cases b with
      | nil => simp [commonPrefixLen]
      | cons y t =>
          by_cases h : x = y
          · subst h; simp [commonPrefixLen, ih t]
          · simp [commonPrefixLen, h]

/-- With `a < b` lexicographically, the common prefix stops before the end
of `b`, and at the stop position (if inside `a`) the byte of `a` is smaller. -/
theorem cpl_lexLt : ∀ {a b : List Nat}, lexLt a b = true →
    commonPrefixLen a b < b.length ∧
    (commonPrefixLen a b < a.length →
      a.getD (commonPrefixLen a b) 0 < b.getD (commonPrefixLen a b) 0) := by
  intro a
  induction a with
  | nil =>
      intro b h
      cases b with
      | nil => cases h
      | cons y t => exact ⟨by simp [commonPrefixLen], by intro h2; simp [commonPrefixLen] at h2⟩
  | cons x s ih =>
      intro b h
      cases b with
      | nil => cases h
      | cons y t =>
          rw [lexLt_cons_cons] at h
          simp only [Bool.or_eq_true, Bool.and_eq_true, beq_iff_eq,
            decide_eq_true_eq] at h
          by_cases hxy : x = y
          · subst hxy
            have hlt : lexLt s t = true := by
              rcases h with h | ⟨_, h⟩
              · omega
              · exact h
            have hih := ih hlt
            have hc : commonPrefixLen (x :: s) (x :: t) = commonPrefixLen s t + 1 := by
              simp [commonPrefixLen]
            rw [hc]
            refine ⟨by simpa using Nat.succ_lt_succ hih.1, ?_⟩
            intro h2
            simp only [List.getD_cons_succ]
            exact hih.2 (by simpa using h2)
          · simp only [commonPrefixLen, if_neg hxy]
            refine ⟨by simp, ?_⟩
            intro _
            simp only [List.getD_cons_zero]
            rcases h with h | ⟨he, _⟩
            · exact h
            · exact absurd he hxy

/-! ### Generic comparison shapes after cancelling a common prefix -/

theorem lexLt_head_gt_false {u : List Nat} {b c : Nat} (t r : List Nat) (h : c < b) :
    lexLt (u ++ b :: t) (u ++ c :: r) = false := by
  rw [lexLt_append_same, lexLt_cons_cons]
  have h1 : decide (b < c) = false := by simp; omega
  have h2 : (b == c) = false := by simp; omega
  rw [h1, h2]
  rfl

theorem append_head_gt_ne {u : List Nat} {b c : Nat} (t r : List Nat) (h : c < b) :
    u ++ b :: t ≠ u ++ c :: r := by
  intro he
  have := List.append_cancel_left he
  simp only [List.cons.injEq] at this
  omega

theorem lexLt_append_nil (u x : List Nat) : lexLt (u ++ x) u = lexLt x [] := by
  induction u with
  | nil => rfl
  | cons a s ih => simp [lexLt_cons_cons, ih]

theorem append_cons_ne_self (u : List Nat) (b : Nat) (t : List Nat) : u ++ b :: t ≠ u := by
  intro he
  have := congrArg List.length he
  simp at this

theorem drop_eq_getD_cons {l : List Nat} {p : Nat} (h : p < l.length) :
    l.drop p = l.getD p 0 :: l.drop (p + 1) := by
  rw [List.drop_eq_getElem_cons h, List.getD_eq_getElem l 0 h]

/-- Head bound after cancelling a common prefix: from
`u ++ b :: t ≤ u ++ c :: r` (lexicographically) follows `b ≤ c`. -/
theorem head_le_of_le_append {u : List Nat} {b c : Nat} {t r : List Nat}
    (h : lexLt (u ++ b :: t) (u ++ c :: r) = true ∨ u ++ b :: t = u ++ c :: r) :
    b ≤ c := by
  rcases h with h | h
  · rw [lexLt_append_same, lexLt_cons_cons] at h
    simp only [Bool.or_eq_true, Bool.and_eq_true, beq_iff_eq, decide_eq_true_eq] at h
    rcases h with h | ⟨h, _⟩ <;> omega
  · have := List.append_cancel_left h
    simp only [List.cons.injEq] at this
    omega

/-- **Core exclusion.** If `prev < v` lexicographically, then no sequence
that starts with a prefix of `v` strictly longer than the common prefix of
`prev` and `v` can be `≤ prev`. -/
theorem extends_beyond_cpl_not_le {prev v : List Nat} (hpv : lexLt prev v = true)
    {idx : Nat} (hgt : commonPrefixLen prev v < idx) (hle : idx ≤ v.length) (s : List Nat) :
    lexLt (v.take idx ++ s) prev = false ∧ v.take idx ++ s ≠ prev := by
  obtain ⟨hp1, hp2⟩ := cpl_lexLt hpv
  obtain ⟨mid, hmid⟩ : ∃ mid, v.take idx ++ s = v.take (commonPrefixLen prev v)
      ++ v.getD (commonPrefixLen prev v) 0 :: mid := by
    refine ⟨(v.drop (commonPrefixLen prev v + 1)).take (idx - commonPrefixLen prev v - 1) ++ s, ?_⟩
    conv_lhs =>
      rw [show idx = commonPrefixLen prev v + (idx - commonPrefixLen prev v) from by omega]
    rw [List.take_add, drop_eq_getD_cons hp1,
      show idx - commonPrefixLen prev v = (idx - commonPrefixLen prev v - 1) + 1 from by omega,
      List.take_succ_cons, List.append_assoc]
    rfl
  by_cases hpp : commonPrefixLen prev v < prev.length
  · have hprev : prev = v.take (commonPrefixLen prev v)
        ++ prev.getD (commonPrefixLen prev v) 0 :: prev.drop (commonPrefixLen prev v + 1) := by
      conv_lhs => rw [← List.take_append_drop (commonPrefixLen prev v) prev]
      rw [cpl_take prev v, drop_eq_getD_cons hpp]
    have hd : prev.getD (commonPrefixLen prev v) 0 < v.getD (commonPrefixLen prev v) 0 :=
      hp2 hpp
    constructor
    · have hgen := lexLt_head_gt_false (u := v.take (commonPrefixLen prev v))
        (b := v.getD (commonPrefixLen prev v) 0) (c := prev.getD (commonPrefixLen prev v) 0)
        mid (prev.drop (commonPrefixLen prev v + 1)) hd
      rw [← hmid, ← hprev] at hgen
      exact hgen
    · have hgen := append_head_gt_ne (u := v.take (commonPrefixLen prev v))
        (b := v.getD (commonPrefixLen prev v) 0) (c := prev.getD (commonPrefixLen prev v) 0)
        mid (prev.drop (commonPrefixLen prev v + 1)) hd
      rw [← hmid, ← hprev] at hgen
      exact hgen
  · have hpe : commonPrefixLen prev v = prev.length :=
      Nat.le_antisymm (cpl_le_left prev v) (Nat.not_lt.mp hpp)
    have hprev : prev = v.take (commonPrefixLen prev v) := by
      conv_lhs => rw [← List.take_append_drop (commonPrefixLen prev v) prev]
      rw [cpl_take prev v,
        show prev.drop (commonPrefixLen prev v) = ([] : List Nat) from by
          rw [hpe]; exact List.drop_length prev,
        List.append_nil]
    constructor
    · have hgen : lexLt (v.take (commonPrefixLen prev v)
          ++ v.getD (commonPrefixLen prev v) 0 :: mid) (v.take (commonPrefixLen prev v)) = false := by
        rw [lexLt_append_nil]
        rfl
      rw [← hmid, ← hprev] at hgen
      exact hgen
    · have hgen := append_cons_ne_self (v.take (commonPrefixLen prev v))
        (v.getD (commonPrefixLen prev v) 0) mid
      rw [← hmid, ← hprev] at hgen
      exact hgen

/-! ## Facts about `Accepts`, `Wf`, `Reach1` -/

theorem Accepts_not_nil {self : List state} {st : state} (h : Accepts self st []) : False := by
  cases h

theorem Accepts_cons_iff (self : List state) (st : state) (b : Nat) (rest : List Nat) :
    Accepts self st (b :: rest) ↔
      ∃ tr, tr ∈ st ∧ Trigger tr = b ∧
        ((rest = [] ∧ IsTerminal tr = true) ∨
         (rest ≠ [] ∧ Accepts self (self.getD (ToState tr) []) rest)) := by
  constructor
  · intro h
    cases h with
    | last hmem ht => exact ⟨_, hmem, rfl, Or.inl ⟨rfl, ht⟩⟩
    | step hmem hne hsub => exact ⟨_, hmem, rfl, Or.inr ⟨hne, hsub⟩⟩
  · rintro ⟨tr, hmem, rfl, ⟨rfl, ht⟩ | ⟨hne, hsub⟩⟩
    · exact Accepts.last hmem ht
    · exact Accepts.step hmem hne hsub

theorem getD_append_lt {self ext : List state} {j : Nat} (h : j < self.length) :
    (self ++ ext).getD j [] = self.getD j [] := by
  rw [List.getD_eq_getElem (self ++ ext) [] (by simp; omega),
    List.getD_eq_getElem self [] h, List.getElem_append_left h]

theorem getD_append_len (self : List state) (s : state) :
    (self ++ [s]).getD self.length [] = s := by
  induction self with
  | nil => rfl
  | cons x rest ih => simpa using ih

theorem getD_of_length_le {self : List state} {j : Nat} (h : self.length ≤ j) :
    self.getD j [] = [] := by
  rw [List.getD_eq_default]
  exact h

/-- Every destination in an in-range state of a `Wf` pool is in range. -/
theorem Wf_dest_lt_length {self : List state} (hwf : Wf self) {j : Nat} :
    ∀ tr ∈ self.getD j [], ToState tr < self.length := by
  intro tr htr
  by_cases hj : j < self.length
  · exact lt_trans (hwf j tr htr) hj
  · rw [getD_of_length_le (Nat.not_lt.mp hj)] at htr
    cases htr

theorem Wf_append {self : List state} {s : state} (hwf : Wf self)
    (hs : ∀ tr ∈ s, ToState tr < self.length) : Wf (self ++ [s]) := by
  intro j tr htr
  rcases Nat.lt_trichotomy j self.length with hj | hj | hj
  · rw [getD_append_lt hj] at htr
    exact hwf j tr htr
  · subst hj
    rw [getD_append_len] at htr
    exact hs tr htr
  · rw [getD_of_length_le (by simp; omega)] at htr
    cases htr

/-- Acceptance only depends on the part of the pool below `self.length`:
appending states changes nothing. -/
theorem Accepts_append_iff {self ext : List state} (hwf : Wf self) :
    ∀ {x : List Nat} {st : state}, (∀ tr ∈ st, ToState tr < self.length) →
      (Accepts (self ++ ext) st x ↔ Accepts self st x) := by
  intro x
  induction x with
  | nil =>
      intro st _
      exact ⟨fun h => (Accepts_not_nil h).elim, fun h => (Accepts_not_nil h).elim⟩
  | cons b rest ih =>
      intro st hst
      rw [Accepts_cons_iff, Accepts_cons_iff]
      constructor
      · rintro ⟨tr, hmem, rfl, hcase⟩
        refine ⟨tr, hmem, rfl, ?_⟩
        rcases hcase with h | ⟨hne, hsub⟩
        · exact Or.inl h
        · refine Or.inr ⟨hne, ?_⟩
          rw [getD_append_lt (hst tr hmem)] at hsub
          exact (ih (fun tr' htr' => Wf_dest_lt_length hwf tr' htr')).mp hsub
      · rintro ⟨tr, hmem, rfl, hcase⟩
        refine ⟨tr, hmem, rfl, ?_⟩
        rcases hcase with h | ⟨hne, hsub⟩
        · exact Or.inl h
        · refine Or.inr ⟨hne, ?_⟩
          rw [getD_append_lt (hst tr hmem)]
          exact (ih (fun tr' htr' => Wf_dest_lt_length hwf tr' htr')).mpr hsub

theorem Reach1_lt {self : List state} (hwf : Wf self) :
    ∀ {st : state} {q : Nat}, Reach1 self st q → ∀ j, st = self.getD j [] → q < j := by
  intro st q h
  induction h with
  | direct hmem =>
      intro j hj
      subst hj
      exact hwf j _ hmem
  | via hmem _ ih =>
      intro j hj
      subst hj
      exact lt_trans (ih _ rfl) (hwf j _ hmem)

/-- The freshness argument behind the start-id invariant: a state whose
content already sits at index `q` cannot reach `q` (the path's ids strictly
decrease). -/
theorem Reach1_fresh {self : List state} (hwf : Wf self) {c : state} {q : Nat}
    (hreach : Reach1 self c q) (heq : self.getD q [] = c) : False := by
  cases hreach with
  | direct hmem =>
      rw [← heq] at hmem
      exact absurd (hwf _ _ hmem) (lt_irrefl _)
  | via hmem hsub =>
      rw [← heq] at hmem
      have h1 := hwf _ _ hmem
      have h2 := Reach1_lt hwf hsub _ rfl
      omega

theorem Reach1_append {self ext : List state} (hwf : Wf self) :
    ∀ {st : state} {q : Nat}, Reach1 self st q →
      (∀ tr ∈ st, ToState tr < self.length) → Reach1 (self ++ ext) st q := by
  intro st q h
  induction h with
  | direct hmem => exact fun _ => Reach1.direct hmem
  | @via st' tr q' hmem hsub ih =>
      intro hst
      refine Reach1.via hmem ?_
      rw [getD_append_lt (hst tr hmem)]
      exact ih (fun tr' htr' => Wf_dest_lt_length hwf tr' htr')

theorem Reach1_mono_root {self : List state} {st st' : state} {q : Nat}
    (h : Reach1 self st q) (hsub : ∀ tr ∈ st, tr ∈ st') : Reach1 self st' q := by
  cases h with
  | direct hmem => exact Reach1.direct (hsub _ hmem)
  | via hmem hsub2 => exact Reach1.via (hsub _ hmem) hsub2

/-! ## `AddTransition` and `makeState` -/

/-- On input transitions larger than everything present, `AddTransition`
appends (the shape in which the builder always calls it). -/
theorem AddTransition_append {s : state} {t : transition} (h : ∀ x ∈ s, x < t) :
    AddTransition s t = s ++ [t] := by
  induction s with
  | nil => rfl
  | cons x xs ih =>
      have hx : x < t := h x (by simp)
      show (if x < t then x :: AddTransition xs t else if x = t then x :: xs else t :: x :: xs)
        = (x :: xs) ++ [t]
      rw [if_pos hx, ih (fun y hy => h y (by simp [hy]))]
      rfl

/-- Packed-value order from trigger order (32-bit values). -/
theorem lt_of_Trigger_lt_of_32 {a t : transition} (ha : a < 4294967296)
    (ht : t < 4294967296) (h : Trigger a < Trigger t) : a < t :=
  lt_of_Trigger_lt ha ht h

theorem indexOf_getD (s : state) : ∀ (self : List state),
    self.indexOf s < self.length → self.getD (self.indexOf s) [] = s := by
  intro self
  induction self with
  | nil => intro h; simp at h
  | cons x rest ih =>
      intro h
      rw [List.indexOf_cons] at h ⊢
      cases hbe : (x == s) with
      | true =>
          rw [show (bif true then 0 else rest.indexOf s + 1) = 0 from rfl,
            List.getD_cons_zero]
          exact eq_of_beq hbe
      | false =>
          rw [show (bif false then 0 else rest.indexOf s + 1) = rest.indexOf s + 1 from rfl,
            List.getD_cons_succ]
          rw [hbe] at h
          rw [show (bif false then 0 else rest.indexOf s + 1) = rest.indexOf s + 1 from rfl] at h
          exact ih (by simp at h; omega)

theorem getD_set_self {l : List state} {k : Nat} {a : state} (h : k < l.length) :
    (l.set k a).getD k [] = a := by
  induction l generalizing k with
  | nil => simp at h
  | cons x rest ih =>
      cases k with
      | zero => rfl
      | succ k =>
          show (x :: rest.set k a).getD (k + 1) [] = a
          rw [List.getD_cons_succ]
          exact ih (Nat.lt_of_succ_lt_succ h)

theorem getD_set_ne {l : List state} {k j : Nat} {a : state} (h : k ≠ j) :
    (l.set k a).getD j [] = l.getD j [] := by
  induction l generalizing k j with
  | nil => simp
  | cons x rest ih =>
      cases k with
      | zero =>
          cases j with
          | zero => exact absurd rfl h
          | succ j => rfl
      | succ k =>
          cases j with
          | zero => rfl
          | succ j =>
              show (x :: rest.set k a).getD (j + 1) [] = (x :: rest).getD (j + 1) []
              rw [List.getD_cons_succ, List.getD_cons_succ]
              exact ih (fun he => h (by rw [he]))

theorem take_concat_getD {l : List Nat} {p : Nat} (h : p < l.length) :
    l.take p ++ [l.getD p 0] = l.take (p + 1) := by
  induction l generalizing p with
  | nil => simp at h
  | cons x rest ih =>
      cases p with
      | zero => rfl
      | succ p =>
          show (x :: rest.take p) ++ [rest.getD p 0] = x :: rest.take (p + 1)
          rw [List.cons_append, ih (Nat.lt_of_succ_lt_succ h)]

theorem getD_mem_of_lt {l : List Nat} {p : Nat} (h : p < l.length) : l.getD p 0 ∈ l := by
  rw [List.getD_eq_getElem l 0 h]
  exact List.getElem_mem h

/-- Acceptance from a state extended with one extra transition at the end
splits into the old branches and the branches of the new transition. -/
theorem Accepts_append_single_iff {self : List state} {st : state} {t : transition}
    {x : List Nat} :
    Accepts self (st ++ [t]) x ↔
      Accepts self st x ∨
        ∃ rest, x = Trigger t :: rest ∧
          ((rest = [] ∧ IsTerminal t = true) ∨
           (rest ≠ [] ∧ Accepts self (self.getD (ToState t) []) rest)) := by
  cases x with
  | nil =>
      constructor
      · intro h; exact (Accepts_not_nil h).elim
      · rintro (h | ⟨rest, heq, _⟩)
        · exact (Accepts_not_nil h).elim
        · cases heq
  | cons b rest =>
      constructor
      · intro h
        obtain ⟨tr, hmem, rfl, hc⟩ := (Accepts_cons_iff _ _ _ _).mp h
        rcases List.mem_append.mp hmem with hm | hm
        · exact Or.inl ((Accepts_cons_iff _ _ _ _).mpr ⟨tr, hm, rfl, hc⟩)
        · have ht : tr = t := by simpa using hm
          subst ht
          exact Or.inr ⟨rest, rfl, hc⟩
      · rintro (h | ⟨rest', heq, hc⟩)
        · obtain ⟨tr, hm, rfl, hc⟩ := (Accepts_cons_iff _ _ _ _).mp h
          exact (Accepts_cons_iff _ _ _ _).mpr ⟨tr, List.mem_append.mpr (Or.inl hm), rfl, hc⟩
        · injection heq with h1 h2
          subst h1
          subst h2
          exact (Accepts_cons_iff _ _ _ _).mpr
            ⟨t, List.mem_append.mpr (Or.inr (by simp)), rfl, hc⟩

theorem makeState_spec (self : List state) (s : state) :
    (makeState self s).2.getD (makeState self s).1 [] = s ∧
    (makeState self s).1 < (makeState self s).2.length ∧
    ((makeState self s).2 = self ∨
      ((makeState self s).2 = self ++ [s] ∧ (makeState self s).1 = self.length)) := by
  unfold makeState
  by_cases h : self.indexOf s < self.length
  · rw [if_pos h]
    exact ⟨indexOf_getD s self h, h, Or.inl rfl⟩
  · rw [if_neg h]
    exact ⟨getD_append_len self s, by simp, Or.inr ⟨rfl, rfl⟩⟩

/-! ## The freeze loop (`makeSuffixStates`) preserves the invariant -/

/-- Entering the freeze loop: `BInv` gives `MInv` at counter `prevValue.length`,
with pool-growth budget `B := b.self.length`. -/
theorem MInv_of_BInv {C : List (List Nat)} {b : BuildState} (h : BInv C b) :
    MInv C b.prevValue b.self.length b.prevValue.length b.self b.larvae := by
  refine ⟨h.lenL, h.wf, h.wfL, h.reach, fun j _ => h.trig j,
    fun j _ tr htr => Nat.le_of_lt (h.trig j tr htr), h.sortL, h.sortS, h.t32L, h.t32S,
    fun j hj hjn s => h.lang j hjn s, ?_, ?_, ?_, Nat.le_refl _⟩
  · intro j hj hjn s
    have hjeq : j = b.prevValue.length := Nat.le_antisymm hjn hj
    subst hjeq
    rw [h.lang _ (Nat.le_refl _) s]
    constructor
    · rintro ⟨hne, hmem, hhd⟩
      rw [List.getD_eq_default _ _ (Nat.le_refl _)] at hhd
      omega
    · rintro ⟨hne, hmem⟩
      exfalso
      have hw := (h.mem _ hmem).2
      rw [List.take_length] at hw
      cases s with
      | nil => exact hne rfl
      | cons c rest =>
          rcases hw with hw | hw
          · rw [lexLt_append_nil] at hw
            cases hw
          · exact append_cons_ne_self _ _ _ hw
  · intro j hj hj1
    omega
  · cases htip : b.larvae.getD b.prevValue.length [] with
    | nil => rfl
    | cons t rest =>
        exfalso
        have := h.trig b.prevValue.length t (by rw [htip]; simp)
        rw [List.getD_eq_default _ _ (Nat.le_refl _)] at this
        omega

/-- One iteration of the freeze loop preserves `MInv`, moving the counter
from `i` down to `i - 1`: the larva at `i` is interned and the larva at
`i - 1` gains the transition for byte `prev[i-1]`. -/
theorem MInv_step {C : List (List Nat)} {prev : List Nat} {terminals : List Bool}
    {B i : Nat} {self larvae : List state}
    (hM : MInv C prev B i self larvae)
    (hi1 : 1 ≤ i) (hin : i ≤ prev.length)
    (hterm : ∀ j, j ≤ prev.length → (terminals.getD j false = true ↔ prev.take j ∈ C))
    (hmem : ∀ w ∈ C, w ≠ [] ∧ (lexLt w prev = true ∨ w = prev))
    (hprevBytes : ∀ x ∈ prev, x < 256)
    (hcap : B + prev.length < 8388608) :
    MInv C prev B (i - 1) (msStep prev terminals (self, larvae) i).1
      (msStep prev terminals (self, larvae) i).2 := by
  obtain ⟨mlenL, mwf, mwfL, mreach, mtrigLow, mtrigHigh, msortL, msortS, mt32L, mt32S,
    mlangLow, mlangHigh, mchain, mtip, mcount⟩ := hM
  obtain ⟨id, self', hmk⟩ : ∃ id self', makeState self (larvae.getD i []) = (id, self') :=
    ⟨_, _, rfl⟩
  obtain ⟨ntr, hntr⟩ :
      ∃ t, NewTransition (prev.getD (i - 1) 0) id (terminals.getD i false) = t := ⟨_, rfl⟩
  have hstep : msStep prev terminals (self, larvae) i =
      (self', larvae.set (i - 1) (AddTransition (larvae.getD (i - 1) []) ntr)) := by
    unfold msStep
    simp only [hmk, ← hntr]
  rw [hstep]
  show MInv C prev B (i - 1) self'
    (larvae.set (i - 1) (AddTransition (larvae.getD (i - 1) []) ntr))
  have hspec := makeState_spec self (larvae.getD i [])
  simp only [hmk] at hspec
  obtain ⟨hgid, hidlt, hcases⟩ := hspec
  have hlen_lb : self.length ≤ self'.length := by
    rcases hcases with rfl | ⟨rfl, _⟩ <;> simp
  have hlen_ub : self'.length ≤ self.length + 1 := by
    rcases hcases with rfl | ⟨rfl, _⟩ <;> simp
  have hpres : ∀ j, j < self.length → self'.getD j [] = self.getD j [] := by
    intro j hj
    rcases hcases with rfl | ⟨rfl, _⟩
    · rfl
    · exact getD_append_lt hj
  have hwf' : Wf self' := by
    rcases hcases with rfl | ⟨rfl, _⟩
    · exact mwf
    · exact Wf_append mwf (mwfL i)
  have hsortS' : ∀ j, TrigMono (self'.getD j []) := by
    intro j
    rcases hcases with rfl | ⟨rfl, _⟩
    · exact msortS j
    · rcases Nat.lt_trichotomy j self.length with hj | hj | hj
      · rw [getD_append_lt hj]; exact msortS j
      · subst hj; rw [getD_append_len]; exact msortL i
      · rw [getD_of_length_le (by simp; omega)]; exact List.Pairwise.nil
  have ht32S' : ∀ j, ∀ tr ∈ self'.getD j [], tr < 4294967296 := by
    intro j tr htr
    rcases hcases with rfl | ⟨rfl, _⟩
    · exact mt32S j tr htr
    · rcases Nat.lt_trichotomy j self.length with hj | hj | hj
      · rw [getD_append_lt hj] at htr; exact mt32S j tr htr
      · subst hj; rw [getD_append_len] at htr; exact mt32L i tr htr
      · rw [getD_of_length_le (by simp; omega)] at htr; cases htr
  have hacc_pres : ∀ (st : state), (∀ t ∈ st, ToState t < self.length) →
      ∀ s, (Accepts self' st s ↔ Accepts self st s) := by
    intro st hst s
    rcases hcases with rfl | ⟨rfl, _⟩
    · exact Iff.rfl
    · exact Accepts_append_iff mwf hst
  have hreach_pres : ∀ (st : state) (q : Nat), (∀ t ∈ st, ToState t < self.length) →
      Reach1 self st q → Reach1 self' st q := by
    intro st q hst hr
    rcases hcases with rfl | ⟨rfl, _⟩
    · exact hr
    · exact Reach1_append mwf hr hst
  have hid23 : id < 8388608 := by
    have := mcount
    omega
  have him1 : i - 1 < prev.length := by omega
  have htrg : Trigger ntr = prev.getD (i - 1) 0 := by
    rw [← hntr]
    exact Trigger_NewTransition _ _ _ (hprevBytes _ (getD_mem_of_lt him1))
  have hdst : ToState ntr = id := by
    rw [← hntr, ToState_NewTransition]
    exact Nat.mod_eq_of_lt hid23
  have hterm_tr : IsTerminal ntr = terminals.getD i false := by
    rw [← hntr]; exact IsTerminal_NewTransition _ _ _
  have ht32tr : ntr < 4294967296 := by
    rw [← hntr]; exact NewTransition_lt _ _ _
  have hadd : AddTransition (larvae.getD (i - 1) []) ntr = larvae.getD (i - 1) [] ++ [ntr] := by
    apply AddTransition_append
    intro x hx
    apply lt_of_Trigger_lt (mt32L _ x hx) ht32tr
    rw [htrg]
    exact mtrigLow (i - 1) (by omega) x hx
  rw [hadd]
  have him1L : i - 1 < larvae.length := by rw [mlenL]; omega
  have hlar_ne : ∀ j, j ≠ i - 1 →
      (larvae.set (i - 1) (larvae.getD (i - 1) [] ++ [ntr])).getD j []
        = larvae.getD j [] := by
    intro j hj
    exact getD_set_ne (fun he => hj he.symm)
  have hlar_eq : (larvae.set (i - 1) (larvae.getD (i - 1) [] ++ [ntr])).getD (i - 1) []
      = larvae.getD (i - 1) [] ++ [ntr] := getD_set_self him1L
  have hine : i ≠ i - 1 := by omega
  refine ⟨by simp [mlenL], hwf', ?_, ?_, ?_, ?_, ?_, hsortS', ?_, ht32S', ?_, ?_, ?_, ?_, ?_⟩
  · -- wfL
    intro j tr htr
    by_cases hj : j = i - 1
    · subst hj
      rw [hlar_eq] at htr
      rcases List.mem_append.mp htr with hm | hm
      · exact lt_of_lt_of_le (mwfL _ tr hm) hlen_lb
      · have : tr = ntr := by simpa using hm
        subst this
        rw [hdst]
        exact hidlt
    · rw [hlar_ne j hj] at htr
      exact lt_of_lt_of_le (mwfL j tr htr) hlen_lb
  · -- reach
    intro q hq
    by_cases hq0 : q < self.length
    · obtain ⟨j, hj, hr⟩ := mreach q hq0
      have hr' : Reach1 self' (larvae.getD j []) q := hreach_pres _ q (mwfL j) hr
      by_cases hji : j = i - 1
      · subst hji
        refine ⟨i - 1, by simpa using him1L, ?_⟩
        rw [hlar_eq]
        exact Reach1_mono_root hr' (fun t ht => List.mem_append.mpr (Or.inl ht))
      · exact ⟨j, by simpa using hj, by rw [hlar_ne j hji]; exact hr'⟩
    · rcases hcases with rfl | ⟨rfl, hid⟩
      · omega
      · have hqid : q = id := by
          simp at hq
          omega
        refine ⟨i - 1, by simpa using him1L, ?_⟩
        rw [hlar_eq, hqid, ← hdst]
        exact Reach1.direct (List.mem_append.mpr (Or.inr (by simp)))
  · -- trigLow
    intro j hj tr htr
    rw [hlar_ne j (by omega)] at htr
    exact mtrigLow j (by omega) tr htr
  · -- trigHigh
    intro j hj tr htr
    by_cases hji : j = i - 1
    · subst hji
      rw [hlar_eq] at htr
      rcases List.mem_append.mp htr with hm | hm
      · exact Nat.le_of_lt (mtrigLow (i - 1) (by omega) tr hm)
      · have : tr = ntr := by simpa using hm
        subst this
        rw [htrg]
    · rw [hlar_ne j hji] at htr
      exact mtrigHigh j (by omega) tr htr
  · -- sortL
    intro j
    by_cases hji : j = i - 1
    · subst hji
      rw [hlar_eq]
      rw [TrigMono, List.pairwise_append]
      refine ⟨msortL (i - 1), List.pairwise_singleton _ _, ?_⟩
      intro a ha b hb
      have : b = ntr := by simpa using hb
      subst this
      rw [htrg]
      exact mtrigLow (i - 1) (by omega) a ha
    · rw [hlar_ne j hji]
      exact msortL j
  · -- t32L
    intro j tr htr
    by_cases hji : j = i - 1
    · subst hji
      rw [hlar_eq] at htr
      rcases List.mem_append.mp htr with hm | hm
      · exact mt32L _ tr hm
      · have : tr = ntr := by simpa using hm
        subst this
        exact ht32tr
    · rw [hlar_ne j hji] at htr
      exact mt32L j tr htr
  · -- langLow
    intro j hj hjn s
    rw [hlar_ne j (by omega)]
    rw [hacc_pres _ (mwfL j) s]
    exact mlangLow j (by omega) hjn s
  · -- langHigh
    intro j hj hjn s
    by_cases hji : j = i - 1
    · subst hji
      rw [hlar_eq]
      rw [Accepts_append_single_iff]
      have hA : Accepts self' (larvae.getD (i - 1) []) s ↔
          (s ≠ [] ∧ (prev.take (i - 1) ++ s) ∈ C ∧ s.headD 0 < prev.getD (i - 1) 0) :=
        (hacc_pres _ (mwfL (i - 1)) s).trans (mlangLow (i - 1) (by omega) (by omega) s)
      have hB : ∀ rest, Accepts self' (self'.getD (ToState ntr) []) rest ↔
          (rest ≠ [] ∧ (prev.take i ++ rest) ∈ C) := by
        intro rest
        rw [hdst, hgid]
        exact (hacc_pres _ (mwfL i) rest).trans (mlangHigh i (Nat.le_refl i) hin rest)
      have htm : terminals.getD i false = true ↔ prev.take i ∈ C := hterm i hin
      have htake : prev.take (i - 1) ++ [prev.getD (i - 1) 0] = prev.take i := by
        have h := take_concat_getD him1
        rw [show i - 1 + 1 = i from by omega] at h
        exact h
      constructor
      · rintro (h | ⟨rest, rfl, hc⟩)
        · obtain ⟨hne, hmem', _⟩ := hA.mp h
          exact ⟨hne, hmem'⟩
        · refine ⟨by simp, ?_⟩
          rcases hc with ⟨rfl, hter⟩ | ⟨hne, hacc⟩
          · rw [htrg, htake]
            rw [hterm_tr] at hter
            exact htm.mp hter
          · rw [htrg, show prev.take (i - 1) ++ prev.getD (i - 1) 0 :: rest
                = (prev.take (i - 1) ++ [prev.getD (i - 1) 0]) ++ rest from by simp,
              htake]
            exact (hB rest).mp hacc |>.2
      · rintro ⟨hne, hmem'⟩
        cases s with
        | nil => exact absurd rfl hne
        | cons b rest =>
            have hprevdec : prev = prev.take (i - 1) ++ prev.getD (i - 1) 0 :: prev.drop i := by
              conv_lhs => rw [← List.take_append_drop (i - 1) prev]
              rw [drop_eq_getD_cons him1, show i - 1 + 1 = i from by omega]
            have hwle := (hmem _ hmem').2
            have hble : b ≤ prev.getD (i - 1) 0 := by
              apply head_le_of_le_append (u := prev.take (i - 1)) (t := rest)
                (r := prev.drop i)
              rcases hwle with h | h
              · left; rw [← hprevdec]; exact h
              · right; rw [← hprevdec]; exact h
            rcases Nat.lt_or_ge b (prev.getD (i - 1) 0) with hblt | hbge
            · exact Or.inl (hA.mpr ⟨hne, hmem', by simpa using hblt⟩)
            · have hbeq : b = prev.getD (i - 1) 0 := by omega
              subst hbeq
              refine Or.inr ⟨rest, by rw [htrg], ?_⟩
              cases rest with
              | nil =>
                  left
                  refine ⟨rfl, ?_⟩
                  rw [hterm_tr]
                  exact htm.mpr (by rw [← htake]; exact hmem')
              | cons c rest' =>
                  right
                  refine ⟨by simp, ?_⟩
                  apply (hB _).mpr
                  refine ⟨by simp, ?_⟩
                  rw [← htake, List.append_assoc]
                  exact hmem'
    · rw [hlar_ne j hji]
      rw [hacc_pres _ (mwfL j) s]
      exact mlangHigh j (by omega) hjn s
  · -- chain
    intro j hj hj1
    by_cases hji : j = i - 1
    · subst hji
      refine ⟨ntr, ?_, ?_⟩
      · rw [hlar_eq]
        exact List.mem_append.mpr (Or.inr (by simp))
      · rw [hdst, hgid, show i - 1 + 1 = i from by omega, hlar_ne i hine]
    · obtain ⟨tr, htr, heq⟩ := mchain j (by omega) hj1
      refine ⟨tr, by rw [hlar_ne j hji]; exact htr, ?_⟩
      rw [hpres _ (mwfL j tr htr), heq, hlar_ne (j + 1) (by omega)]
  · -- tip
    rw [hlar_ne _ (by omega)]
    exact mtip
  · -- count
    have := mcount
    omega

/-- Running the freeze loop from counter `i` down to `p` preserves the invariant. -/
theorem MInv_loop {C : List (List Nat)} {prev : List Nat} {terminals : List Bool} {B p : Nat}
    (hterm : ∀ j, j ≤ prev.length → (terminals.getD j false = true ↔ prev.take j ∈ C))
    (hmem : ∀ w ∈ C, w ≠ [] ∧ (lexLt w prev = true ∨ w = prev))
    (hprevBytes : ∀ x ∈ prev, x < 256)
    (hcap : B + prev.length < 8388608) :
    ∀ (i : Nat) (self larvae : List state), p ≤ i → i ≤ prev.length →
      MInv C prev B i self larvae →
      MInv C prev B p (makeSuffixStates prev terminals p i (self, larvae)).1
        (makeSuffixStates prev terminals p i (self, larvae)).2 := by
  intro i
  induction i with
  | zero =>
      intro self larvae hp _ hM
      have hp0 : p = 0 := by omega
      subst hp0
      exact hM
  | succ i ih =>
      intro self larvae hp hin hM
      by_cases hpi : p < i + 1
      · rw [show makeSuffixStates prev terminals p (i + 1) (self, larvae)
            = makeSuffixStates prev terminals p i (msStep prev terminals (self, larvae) (i + 1))
          from by simp only [makeSuffixStates, if_pos hpi]]
        have hstep := MInv_step hM (by omega) hin hterm hmem hprevBytes hcap
        rw [show i + 1 - 1 = i from rfl] at hstep
        have := ih (msStep prev terminals (self, larvae) (i + 1)).1
          (msStep prev terminals (self, larvae) (i + 1)).2 (by omega) (by omega) hstep
        rw [Prod.mk.eta] at this
        exact this
      · have hpe : p = i + 1 := by omega
        subst hpe
        rw [show makeSuffixStates prev terminals (i + 1) (i + 1) (self, larvae) = (self, larvae)
          from by simp only [makeSuffixStates, if_neg hpi]]
        exact hM

/-! ## Generic `getD` helpers for the truncate-and-extend phase -/

theorem getDg_append_lt {α : Type} {l r : List α} {d : α} {j : Nat} (h : j < l.length) :
    (l ++ r).getD j d = l.getD j d := by
  induction l generalizing j with
  | nil => simp at h
  | cons x rest ih =>
      cases j with
      | zero => rfl
      | succ j =>
          show (rest ++ r).getD j d = rest.getD j d
          exact ih (by simpa using h)

theorem getDg_append_ge {α : Type} {l r : List α} {d : α} {j : Nat} (h : l.length ≤ j) :
    (l ++ r).getD j d = r.getD (j - l.length) d := by
  induction l generalizing j with
  | nil => simp
  | cons x rest ih =>
      cases j with
      | zero => simp at h
      | succ j =>
          show (rest ++ r).getD j d = r.getD (j + 1 - (rest.length + 1)) d
          rw [ih (by simpa using h)]
          congr 1
          omega

theorem getDg_take {α : Type} {l : List α} {d : α} {k j : Nat} (h : j < k) :
    (l.take k).getD j d = l.getD j d := by
  induction l generalizing k j with
  | nil => simp
  | cons x rest ih =>
      cases k with
      | zero => omega
      | succ k =>
          cases j with
          | zero => rfl
          | succ j =>
              show (rest.take k).getD j d = rest.getD j d
              exact ih (by omega)

theorem getDg_replicate {α : Type} {a d : α} {k j : Nat} (h : a = d) :
    (List.replicate k a).getD j d = d := by
  induction k generalizing j with
  | zero => simp
  | succ k ih =>
      cases j with
      | zero => exact h
      | succ j => exact ih

theorem getDg_set_self {α : Type} {l : List α} {k : Nat} {a d : α} (h : k < l.length) :
    (l.set k a).getD k d = a := by
  induction l generalizing k with
  | nil => simp at h
  | cons x rest ih =>
      cases k with
      | zero => rfl
      | succ k =>
          show (rest.set k a).getD k d = a
          exact ih (by simpa using h)

theorem getDg_set_ne {α : Type} {l : List α} {k j : Nat} {a d : α} (h : k ≠ j) :
    (l.set k a).getD j d = l.getD j d := by
  induction l generalizing k j with
  | nil => simp
  | cons x rest ih =>
      cases k with
      | zero =>
          cases j with
          | zero => exact absurd rfl h
          | succ j => rfl
      | succ k =>
          cases j with
          | zero => rfl
          | succ j =>
              show (rest.set k a).getD j d = rest.getD j d
              exact ih (fun he => h (by rw [he]))

/-- Walking the freshly frozen chain downward: anything reachable from a
processed larva is reachable from the larva at the loop's final position. -/
theorem reach_chain_down {self larvae : List state} {p n : Nat}
    (hchain : ∀ j, p ≤ j → j + 1 ≤ n →
      ∃ tr ∈ larvae.getD j [], self.getD (ToState tr) [] = larvae.getD (j + 1) []) :
    ∀ (d j : Nat), j = p + d → j ≤ n → ∀ q, Reach1 self (larvae.getD j []) q →
      Reach1 self (larvae.getD p []) q := by
  intro d
  induction d with
  | zero =>
      intro j hj _ q hq
      rw [show p = j from by omega]
      exact hq
  | succ d ihd =>
      intro j hj hjn q hq
      obtain ⟨tr, htr, heq⟩ := hchain (p + d) (by omega) (by omega)
      have hq' : Reach1 self (larvae.getD (p + d) []) q := by
        refine Reach1.via htr ?_
        rw [heq, show p + d + 1 = j from by omega]
        exact hq
      exact ihd (p + d) rfl (by omega) q hq'

/-- No sequence is accepted from a state with no transitions. -/
theorem Accepts_empty {self : List state} {s : List Nat} (h : Accepts self [] s) : False := by
  cases h with
  | last hm _ => cases hm
  | step hm _ _ => cases hm

theorem take_append_cancel {v s : List Nat} {i : Nat} (h : v.take i ++ s = v) :
    s = v.drop i := by
  have h2 : v.take i ++ s = v.take i ++ v.drop i := by rw [h, List.take_append_drop]
  exact List.append_cancel_left h2

theorem headD_drop {v : List Nat} {i : Nat} (h : i < v.length) :
    (v.drop i).headD 0 = v.getD i 0 := by
  rw [drop_eq_getD_cons h]
  rfl

/-- Consuming one more value: `addValue` succeeds on a strictly greater
value and re-establishes the builder invariant for the extended set. -/
theorem BInv_addValue {C : List (List Nat)} {b : BuildState} {v : List Nat}
    (hB : BInv C b) (hlt : lexLt b.prevValue v = true)
    (hvB : ∀ x ∈ v, x < 256)
    (hcap : (C.map List.length).sum < 8388608) :
    ∃ b', addValue b v = Except.ok b' ∧ BInv (C ++ [v]) b' := by
  obtain ⟨p, hp⟩ : ∃ p, commonPrefixLen b.prevValue v = p := ⟨_, rfl⟩
  obtain ⟨hpv, hplt⟩ := cpl_lexLt hlt
  rw [hp] at hpv hplt
  have hple : p ≤ b.prevValue.length := by rw [← hp]; exact cpl_le_left _ _
  have hcap' : b.self.length + b.prevValue.length < 8388608 := by
    have := hB.count
    omega
  obtain ⟨self', larvae', hms⟩ : ∃ a c,
      makeSuffixStates b.prevValue b.terminals p b.prevValue.length (b.self, b.larvae)
        = (a, c) := ⟨_, _, rfl⟩
  have hM := MInv_loop hB.term hB.mem hB.prevBytes hcap' b.prevValue.length b.self b.larvae
    hple (Nat.le_refl _) (MInv_of_BInv hB)
  simp only [hms] at hM
  obtain ⟨mlenL, mwf, mwfL, mreach, mtrigLow, mtrigHigh, msortL, msortS, mt32L, mt32S,
    mlangLow, mlangHigh, mchain, mtip, mcount⟩ := hM
  have haddeq : addValue b v = Except.ok
      ⟨self', (b.terminals.take (p + 1) ++ List.replicate (v.length - p) false).set v.length true,
        larvae'.take (p + 1) ++ List.replicate (v.length - p) [], v⟩ := by
    unfold addValue
    rw [if_pos hlt]
    simp only [hp, hms]
  refine ⟨_, haddeq, ?_⟩
  have hvne : v ≠ [] := ne_nil_of_lexLt hlt
  have hvpos : 0 < v.length := by cases v with | nil => exact absurd rfl hvne | cons _ _ => simp
  have htake_agree : ∀ i, i ≤ p → v.take i = b.prevValue.take i := by
    intro i hi
    have h1 := cpl_take b.prevValue v
    rw [hp] at h1
    calc v.take i = (v.take p).take i := by rw [List.take_take]; congr 1; omega
      _ = (b.prevValue.take p).take i := by rw [h1]
      _ = b.prevValue.take i := by rw [List.take_take]; congr 1; omega
  have hgetD_agree : ∀ i, i < p → v.getD i 0 = b.prevValue.getD i 0 := by
    intro i hi
    have h1 : v.getD i 0 = (v.take (i + 1)).getD i 0 := (getDg_take (by omega)).symm
    rw [h1, htake_agree (i + 1) (by omega), getDg_take (by omega)]
  have htklen : (larvae'.take (p + 1)).length = p + 1 := by
    rw [List.length_take, mlenL]
    omega
  have hlow : ∀ j, j ≤ p →
      (larvae'.take (p + 1) ++ List.replicate (v.length - p) ([] : state)).getD j []
        = larvae'.getD j [] := by
    intro j hj
    rw [getDg_append_lt (by rw [htklen]; omega), getDg_take (by omega)]
  have hhigh : ∀ j, p < j →
      (larvae'.take (p + 1) ++ List.replicate (v.length - p) ([] : state)).getD j []
        = [] := by
    intro j hj
    rw [getDg_append_ge (by rw [htklen]; omega), getDg_replicate rfl]
  have htlen : (b.terminals.take (p + 1)).length = p + 1 := by
    rw [List.length_take, hB.lenT]
    omega
  have hprevdec : p < b.prevValue.length →
      b.prevValue = b.prevValue.take p ++ b.prevValue.getD p 0 :: b.prevValue.drop (p + 1) := by
    intro hpp
    conv_lhs => rw [← List.take_append_drop p b.prevValue]
    rw [drop_eq_getD_cons hpp]
  refine ⟨?_, ?_, mwf, ?_, ?_, ?_, ?_, hvB, ?_, ?_, ?_, msortS, ?_, mt32S, ?_, ?_⟩
  · -- lenL
    show (larvae'.take (p + 1) ++ List.replicate (v.length - p) []).length = v.length + 1
    rw [List.length_append, htklen, List.length_replicate]
    omega
  · -- lenT
    show ((b.terminals.take (p + 1) ++ List.replicate (v.length - p) false).set
        v.length true).length = v.length + 1
    rw [List.length_set, List.length_append, htlen, List.length_replicate]
    omega
  · -- wfL
    show ∀ i, ∀ tr ∈ (larvae'.take (p + 1) ++ List.replicate (v.length - p) ([] : state)).getD i [],
      ToState tr < self'.length
    intro i tr htr
    by_cases hip : i ≤ p
    · rw [hlow i hip] at htr
      exact mwfL i tr htr
    · rw [hhigh i (by omega)] at htr
      cases htr
  · -- reach
    show ∀ q, q < self'.length → ∃ i,
      i < (larvae'.take (p + 1) ++ List.replicate (v.length - p) ([] : state)).length ∧
        Reach1 self' ((larvae'.take (p + 1) ++ List.replicate (v.length - p) ([] : state)).getD i []) q
    intro q hq
    obtain ⟨j, hj, hr⟩ := mreach q hq
    rw [mlenL] at hj
    by_cases hjp : j ≤ p
    · refine ⟨j, ?_, ?_⟩
      · show j < (larvae'.take (p + 1) ++ List.replicate (v.length - p) []).length
        rw [List.length_append, htklen, List.length_replicate]
        omega
      · rw [hlow j hjp]
        exact hr
    · refine ⟨p, ?_, ?_⟩
      · show p < (larvae'.take (p + 1) ++ List.replicate (v.length - p) []).length
        rw [List.length_append, htklen, List.length_replicate]
        omega
      · rw [hlow p (Nat.le_refl p)]
        exact reach_chain_down mchain (j - p) j (by omega) (by omega) q hr
  · -- mem
    intro w hw
    rcases List.mem_append.mp hw with hwC | hwv
    · obtain ⟨hne, hle⟩ := hB.mem w hwC
      exact ⟨hne, Or.inl (lexLt_le_trans hle hlt)⟩
    · have : w = v := by simpa using hwv
      subst this
      exact ⟨hvne, Or.inr rfl⟩
  · -- bytes
    intro w hw
    rcases List.mem_append.mp hw with hwC | hwv
    · exact hB.bytes w hwC
    · have : w = v := by simpa using hwv
      subst this
      exact hvB
  · -- count
    show self'.length + v.length ≤ ((C ++ [v]).map List.length).sum
    have h1 : ((C ++ [v]).map List.length).sum = (C.map List.length).sum + v.length := by
      simp
    have h2 := hB.count
    rw [h1]
    omega
  · -- trig
    show ∀ i, ∀ tr ∈ (larvae'.take (p + 1) ++ List.replicate (v.length - p) ([] : state)).getD i [],
      Trigger tr < v.getD i 0
    intro i tr htr
    by_cases hip : i < p
    · rw [hlow i (by omega)] at htr
      rw [hgetD_agree i hip]
      exact mtrigLow i hip tr htr
    · by_cases hie : i = p
      · subst hie
        rw [hlow i (Nat.le_refl i)] at htr
        by_cases hpp : i < b.prevValue.length
        · have h1 := mtrigHigh i (Nat.le_refl i) tr htr
          have h2 := hplt hpp
          omega
        · have hpe : i = b.prevValue.length := by omega
          rw [hpe, mtip] at htr
          cases htr
      · rw [hhigh i (by omega)] at htr
        cases htr
  · -- sortL
    show ∀ i, TrigMono ((larvae'.take (p + 1) ++ List.replicate (v.length - p) ([] : state)).getD i [])
    intro i
    by_cases hip : i ≤ p
    · rw [hlow i hip]
      exact msortL i
    · rw [hhigh i (by omega)]
      exact List.Pairwise.nil
  · -- t32L
    show ∀ i, ∀ tr ∈ (larvae'.take (p + 1) ++ List.replicate (v.length - p) ([] : state)).getD i [],
      tr < 4294967296
    intro i tr htr
    by_cases hip : i ≤ p
    · rw [hlow i hip] at htr
      exact mt32L i tr htr
    · rw [hhigh i (by omega)] at htr
      cases htr
  · -- term
    show ∀ i, i ≤ v.length →
      (((b.terminals.take (p + 1) ++ List.replicate (v.length - p) false).set
        v.length true).getD i false = true ↔ v.take i ∈ C ++ [v])
    intro i hi
    by_cases hiv : i = v.length
    · subst hiv
      rw [getDg_set_self (by rw [List.length_append, htlen, List.length_replicate]; omega)]
      rw [List.take_length]
      simp
    · rw [getDg_set_ne (fun he => hiv he.symm)]
      by_cases hip : i ≤ p
      · rw [getDg_append_lt (by rw [htlen]; omega), getDg_take (by omega)]
        rw [hB.term i (by omega)]
        rw [← htake_agree i hip]
        constructor
        · intro h
          exact List.mem_append.mpr (Or.inl h)
        · intro h
          rcases List.mem_append.mp h with h | h
          · exact h
          · exfalso
            have hveq : v.take i = v := by simpa using h
            have := congrArg List.length hveq
            rw [List.length_take] at this
            omega
      · rw [getDg_append_ge (by rw [htlen]; omega), getDg_replicate rfl]
        constructor
        · intro h
          cases h
        · intro h
          exfalso
          rcases List.mem_append.mp h with h | h
          · obtain ⟨_, hle⟩ := hB.mem _ h
            have hgt : commonPrefixLen b.prevValue v < i := by rw [hp]; omega
            have hile : i ≤ v.length := by omega
            have hex := extends_beyond_cpl_not_le hlt hgt hile []
            rw [List.append_nil] at hex
            rcases hle with hle | hle
            · rw [hex.1] at hle; cases hle
            · exact hex.2 hle
          · have hveq : v.take i = v := by simpa using h
            have := congrArg List.length hveq
            rw [List.length_take] at this
            omega
  · -- lang
    show ∀ i, i ≤ v.length → ∀ s,
      Accepts self' ((larvae'.take (p + 1) ++ List.replicate (v.length - p) ([] : state)).getD i []) s ↔
        (s ≠ [] ∧ (v.take i ++ s) ∈ C ++ [v] ∧ s.headD 0 < v.getD i 0)
    intro i hi s
    by_cases hip : i < p
    · rw [hlow i (by omega)]
      rw [mlangLow i hip (by omega) s]
      rw [← htake_agree i (by omega), ← hgetD_agree i hip]
      constructor
      · rintro ⟨hne, hmem, hhd⟩
        exact ⟨hne, List.mem_append.mpr (Or.inl hmem), hhd⟩
      · rintro ⟨hne, hmem, hhd⟩
        refine ⟨hne, ?_, hhd⟩
        rcases List.mem_append.mp hmem with h | h
        · exact h
        · exfalso
          have hveq : v.take i ++ s = v := by simpa using h
          have hs := take_append_cancel hveq
          rw [hs, headD_drop (by omega)] at hhd
          omega
    · by_cases hie : i = p
      · subst hie
        rw [hlow i (Nat.le_refl i)]
        by_cases hpp : i < b.prevValue.length
        · rw [mlangHigh i (Nat.le_refl i) (by omega) s]
          rw [htake_agree i (Nat.le_refl i)]
          constructor
          · rintro ⟨hne, hmem⟩
            refine ⟨hne, List.mem_append.mpr (Or.inl hmem), ?_⟩
            cases s with
            | nil => exact absurd rfl hne
            | cons c rest =>
                have hwle := (hB.mem _ hmem).2
                have hcle : c ≤ b.prevValue.getD i 0 := by
                  apply head_le_of_le_append (u := b.prevValue.take i) (t := rest)
                    (r := b.prevValue.drop (i + 1))
                  rcases hwle with h | h
                  · left; rw [← hprevdec hpp]; exact h
                  · right; rw [← hprevdec hpp]; exact h
                have := hplt hpp
                simp only [List.headD_cons]
                omega
          · rintro ⟨hne, hmem, hhd⟩
            refine ⟨hne, ?_⟩
            rcases List.mem_append.mp hmem with h | h
            · exact h
            · exfalso
              have hveq : v.take i ++ s = v := by
                rw [htake_agree i (Nat.le_refl i)]
                simpa using h
              have hs := take_append_cancel hveq
              rw [hs, headD_drop (by omega)] at hhd
              omega
        · have hpe : i = b.prevValue.length := by omega
          rw [hpe, mtip]
          constructor
          · intro h
            exact (Accepts_empty h).elim
          · rintro ⟨hne, hmem, hhd⟩
            exfalso
            have hvtake : v.take b.prevValue.length = b.prevValue := by
              rw [← hpe, htake_agree i (Nat.le_refl i), hpe, List.take_length]
            rw [hvtake] at hmem
            rcases List.mem_append.mp hmem with h | h
            · obtain ⟨_, hle⟩ := hB.mem _ h
              cases s with
              | nil => exact hne rfl
              | cons c rest =>
                  rcases hle with hle | hle
                  · rw [lexLt_append_nil] at hle
                    cases hle
                  · exact append_cons_ne_self _ _ _ hle
            · have hveq : b.prevValue ++ s = v := by simpa using h
              have hs : s = v.drop b.prevValue.length := by
                apply take_append_cancel
                rw [hvtake]
                exact hveq
              rw [hs, headD_drop (by omega)] at hhd
              omega
      · rw [hhigh i (by omega)]
        constructor
        · intro h
          exact (Accepts_empty h).elim
        · rintro ⟨hne, hmem, hhd⟩
          exfalso
          rcases List.mem_append.mp hmem with h | h
          · obtain ⟨_, hle⟩ := hB.mem _ h
            have hgt : commonPrefixLen b.prevValue v < i := by rw [hp]; omega
            have hile : i ≤ v.length := by omega
            have hex := extends_beyond_cpl_not_le hlt hgt hile s
            rcases hle with hle | hle
            · rw [hex.1] at hle; cases hle
            · exact hex.2 hle
          · have hveq : v.take i ++ s = v := by simpa using h
            have hs := take_append_cancel hveq
            by_cases hivl : i < v.length
            · rw [hs, headD_drop hivl] at hhd
              omega
            · have : i = v.length := by omega
              rw [hs, this, List.drop_length] at hne
              exact hne rfl

/-! ## Folding the build over the whole input -/

/-- The invariant holds initially (empty pool, one empty larva). -/
theorem BInv_init : BInv [] ⟨[], [false], [[]], []⟩ := by
  refine ⟨rfl, rfl, ?_, ?_, ?_, ?_, ?_, ?_, ?_, ?_, ?_, ?_, ?_, ?_, ?_, ?_⟩
  · intro j tr htr
    rw [getD_of_length_le (by simp)] at htr
    cases htr
  · intro i tr htr
    cases i with
    | zero => cases htr
    | succ i =>
        rw [getD_of_length_le (by simp)] at htr
        cases htr
  · intro q hq
    simp at hq
  · intro w hw
    cases hw
  · intro w hw
    cases hw
  · intro x hx
    cases hx
  · simp
  · intro i tr htr
    cases i with
    | zero => cases htr
    | succ i =>
        rw [getD_of_length_le (by simp)] at htr
        cases htr
  · intro i
    cases i with
    | zero => exact List.Pairwise.nil
    | succ i =>
        rw [getD_of_length_le (by simp)]
        exact List.Pairwise.nil
  · intro j
    rw [getD_of_length_le (by simp)]
    exact List.Pairwise.nil
  · intro i tr htr
    cases i with
    | zero => cases htr
    | succ i =>
        rw [getD_of_length_le (by simp)] at htr
        cases htr
  · intro j tr htr
    rw [getD_of_length_le (by simp)] at htr
    cases htr
  · intro i hi
    have hiz : i = 0 := by simpa using hi
    subst hiz
    constructor
    · intro h
      cases h
    · intro h
      cases h
  · intro i hi s
    have hiz : i = 0 := by simpa using hi
    subst hiz
    constructor
    · intro h
      exact (Accepts_empty h).elim
    · rintro ⟨_, hmem, _⟩
      cases hmem

/-- Folding `addValue` over a strictly ascending remaining input extends
the invariant, value by value. -/
theorem BInv_fold : ∀ (rest : List (List Nat)) (C : List (List Nat)) (b : BuildState),
    BInv C b →
    List.Chain' (fun a c => lexLt a c = true) (b.prevValue :: rest) →
    (∀ w ∈ rest, ∀ x ∈ w, x < 256) →
    ((C.map List.length).sum + (rest.map List.length).sum < 8388608) →
    ∃ b', List.foldlM addValue b rest = Except.ok b' ∧ BInv (C ++ rest) b' := by
  intro rest
  induction rest with
  | nil =>
      intro C b hB _ _ _
      exact ⟨b, rfl, by simpa using hB⟩
  | cons v rest ih =>
      intro C b hB hchain hbytes hcap
      have hlt : lexLt b.prevValue v = true := (List.chain'_cons.mp hchain).1
      have hsum : ((v :: rest).map List.length).sum
          = v.length + (rest.map List.length).sum := by simp
      obtain ⟨b', hav, hB'⟩ := BInv_addValue hB hlt (hbytes v (by simp))
        (by rw [hsum] at hcap; omega)
      have hprev' : b'.prevValue = v := addValue_ok_prev hav
      obtain ⟨b'', hfold, hB''⟩ := ih (C ++ [v]) b' hB'
        (by rw [hprev']; exact (List.chain'_cons.mp hchain).2)
        (fun w hw x hx => hbytes w (by simp [hw]) x hx)
        (by simp only [List.map_append, List.sum_append]; rw [hsum] at hcap; simp; omega)
      refine ⟨b'', ?_, by rw [List.append_assoc] at hB''; simpa using hB''⟩
      rw [foldlM_addValue_cons, hav]
      exact hfold

/-- **Builder soundness.**  On a strictly ascending stream of non-empty
byte sequences (bytes `< 256`, total size within the 23-bit state-id
capacity), `FromChannel` succeeds — the interned root is fresh, so it does
land at the last index — and the result is an acyclic pool of
trigger-sorted 32-bit states whose start state accepts exactly the input
set. -/
theorem FromChannel_ok {values : List (List Nat)}
    (hchain : List.Chain' (fun a c => lexLt a c = true) ([] :: values))
    (hbytes : ∀ w ∈ values, ∀ x ∈ w, x < 256)
    (hcap : (values.map List.length).sum < 8388608) :
    ∃ pool root, FromChannel values = Except.ok (pool ++ [root]) ∧
      makeState pool root = (pool.length, pool ++ [root]) ∧
      Start (pool ++ [root]) = root ∧
      Wf (pool ++ [root]) ∧
      (∀ j, TrigMono ((pool ++ [root]).getD j [])) ∧
      (∀ j, ∀ tr ∈ (pool ++ [root]).getD j [], tr < 4294967296) ∧
      (∀ s, Accepts (pool ++ [root]) root s ↔ s ∈ values) := by
  obtain ⟨b, hfold, hB⟩ := BInv_fold values [] ⟨[], [false], [[]], []⟩ BInv_init
    (by simpa using hchain) hbytes (by simpa using hcap)
  rw [List.nil_append] at hB
  have hcap' : b.self.length + b.prevValue.length < 8388608 := by
    have := hB.count
    omega
  obtain ⟨self', larvae', hms⟩ : ∃ a c,
      makeSuffixStates b.prevValue b.terminals 0 b.prevValue.length (b.self, b.larvae)
        = (a, c) := ⟨_, _, rfl⟩
  have hM := MInv_loop hB.term hB.mem hB.prevBytes hcap' b.prevValue.length b.self b.larvae
    (Nat.zero_le _) (Nat.le_refl _) (MInv_of_BInv hB)
  simp only [hms] at hM
  obtain ⟨mlenL, mwf, mwfL, mreach, mtrigLow, mtrigHigh, msortL, msortS, mt32L, mt32S,
    mlangLow, mlangHigh, mchain, mtip, mcount⟩ := hM
  have hfresh : ¬ self'.indexOf (larvae'.getD 0 []) < self'.length := by
    intro hfound
    have hq : self'.getD (self'.indexOf (larvae'.getD 0 [])) [] = larvae'.getD 0 [] :=
      indexOf_getD _ self' hfound
    obtain ⟨j, hj, hr⟩ := mreach _ hfound
    have hr0 : Reach1 self' (larvae'.getD 0 []) (self'.indexOf (larvae'.getD 0 [])) :=
      reach_chain_down mchain j j (by omega) (by rw [mlenL] at hj; omega) _ hr
    exact Reach1_fresh mwf hr0 hq
  have hmk : makeState self' (larvae'.getD 0 [])
      = (self'.length, self' ++ [larvae'.getD 0 []]) := by
    unfold makeState
    rw [if_neg hfresh]
  have hFC : FromChannel values = Except.ok (self' ++ [larvae'.getD 0 []]) := by
    unfold FromChannel
    rw [hfold]
    simp only [hms, hmk]
    rw [if_pos (by simp)]
  have hstart : Start (self' ++ [larvae'.getD 0 []]) = larvae'.getD 0 [] := by
    unfold Start
    rw [show (self' ++ [larvae'.getD 0 []]).length - 1 = self'.length from by simp]
    exact getD_append_len _ _
  refine ⟨self', larvae'.getD 0 [], hFC, hmk, hstart, Wf_append mwf (mwfL 0), ?_, ?_, ?_⟩
  · intro j
    rcases Nat.lt_trichotomy j self'.length with hj | hj | hj
    · rw [getD_append_lt hj]
      exact msortS j
    · subst hj
      rw [getD_append_len]
      exact msortL 0
    · rw [getD_of_length_le (by simp; omega)]
      exact List.Pairwise.nil
  · intro j tr htr
    rcases Nat.lt_trichotomy j self'.length with hj | hj | hj
    · rw [getD_append_lt hj] at htr
      exact mt32S j tr htr
    · subst hj
      rw [getD_append_len] at htr
      exact mt32L 0 tr htr
    · rw [getD_of_length_le (by simp; omega)] at htr
      cases htr
  · intro s
    rw [Accepts_append_iff mwf (mwfL 0),
      mlangHigh 0 (Nat.le_refl 0) (Nat.zero_le _) s]
    rw [List.take_zero, List.nil_append]
    constructor
    · rintro ⟨_, hmem⟩
      exact hmem
    · intro hmem
      exact ⟨(hB.mem s hmem).1, hmem⟩

/-- **C8** — Start-state placement invariant: on every valid ascending
input (strictly ascending non-empty values, bytes `< 256`, total size
within the 23-bit id capacity) the root state interned last by
`FromChannel` is appended at the highest index, so `Start` (the state at
index `len-1`) is exactly that root; and, for any input whatsoever, if the
final interning were to yield any index other than `len-1` the builder
returns the internal invariant-violation error rather than that
Recognizer. -/
theorem C8_start_state_placement {values : List (List Nat)}
    (hchain : List.Chain' (fun a c => lexLt a c = true) ([] :: values))
    (hbytes : ∀ w ∈ values, ∀ x ∈ w, x < 256)
    (hcap : (values.map List.length).sum < 8388608) :
    (∃ pool root, FromChannel values = Except.ok (pool ++ [root]) ∧
        makeState pool root = (pool.length, pool ++ [root]) ∧
        Start (pool ++ [root]) = root) ∧
    (∀ (vs : List (List Nat)) (b : BuildState),
      List.foldlM addValue ⟨[], [false], [[]], []⟩ vs = Except.ok b →
      ∀ pool larvae,
        makeSuffixStates b.prevValue b.terminals 0 b.prevValue.length (b.self, b.larvae)
          = (pool, larvae) →
        (makeState pool (larvae.getD 0 [])).1
          ≠ (makeState pool (larvae.getD 0 [])).2.length - 1 →
        FromChannel vs = Except.error BuildError.badStart) := by
  constructor
  · obtain ⟨pool, root, hok, hmk, hstart, _⟩ := FromChannel_ok hchain hbytes hcap
    exact ⟨pool, root, hok, hmk, hstart⟩
  · intro vs b hfold pool larvae hms hne
    obtain ⟨sid, self'', hmk2⟩ : ∃ a c, makeState pool (larvae.getD 0 []) = (a, c) :=
      ⟨_, _, rfl⟩
    rw [hmk2] at hne
    unfold FromChannel
    rw [hfold]
    simp only [hms, hmk2]
    simp only at hne
    rw [if_neg hne]

/-- C8 at the concrete input `{"A", "B"}`. -/
theorem C8_start_state_placement_witness :
    (∃ pool root, FromChannel [[65], [66]] = Except.ok (pool ++ [root]) ∧
        makeState pool root = (pool.length, pool ++ [root]) ∧
        Start (pool ++ [root]) = root) ∧
    (∀ (vs : List (List Nat)) (b : BuildState),
      List.foldlM addValue ⟨[], [false], [[]], []⟩ vs = Except.ok b →
      ∀ pool larvae,
        makeSuffixStates b.prevValue b.terminals 0 b.prevValue.length (b.self, b.larvae)
          = (pool, larvae) →
        (makeState pool (larvae.getD 0 [])).1
          ≠ (makeState pool (larvae.getD 0 [])).2.length - 1 →
        FromChannel vs = Except.error BuildError.badStart) :=
  C8_start_state_placement
    (List.chain'_cons.mpr ⟨by decide,
      List.chain'_cons.mpr ⟨by decide, List.chain'_singleton _⟩⟩)
    (by decide) (by decide)

/-! ## The traversal loop equals the recursive reference

Under constraints whose `IsValueAllowed` is constantly true (the shape of
`BaseConstraints` and of the length windows), the cursor-advancing helper
is the identity and the stack machine `csLoop` computes `stackSeq`. -/

theorem advCount_allowed {allowed : Nat → Bool} (h : ∀ b, allowed b = true) :
    ∀ l : List transition, advCount allowed l = 0 := by
  intro l
  induction l with
  | nil => rfl
  | cons t rest ih =>
      unfold advCount
      rw [h (Trigger t)]
      simp

theorem advanceIdx_id {allowed : Nat → Bool} (h : ∀ b, allowed b = true)
    (s : state) (c : Nat) : advanceIdx s allowed c = c := by
  unfold advanceIdx
  rw [advCount_allowed h]
  omega

theorem seqState_nil (self : Recognizer) (con : Constraints) :
    ∀ fuel d pre, seqState self con fuel d pre [] = [] := by
  intro fuel d pre
  cases fuel <;> rfl

theorem seqState_cons (self : Recognizer) (con : Constraints) (fuel d : Nat)
    (pre : List Nat) (tr : transition) (rest : state) :
    seqState self con (fuel + 1) d pre (tr :: rest) =
      (if con.IsValueAllowed d (Trigger tr) then
        (if IsTerminal tr && con.IsLargeEnough (d + 1) &&
            con.IsSequenceAllowed (pre ++ [Trigger tr]) then [pre ++ [Trigger tr]] else []) ++
        (if !(self.getD (ToState tr) []).isEmpty && con.IsSmallEnough (d + 2) then
          seqState self con fuel (d + 1) (pre ++ [Trigger tr]) (self.getD (ToState tr) [])
        else [])
      else []) ++ seqState self con (fuel + 1) d pre rest := rfl

theorem seqCost_nil (self : Recognizer) : ∀ fuel, seqCost self fuel [] = 0 := by
  intro fuel
  cases fuel <;> rfl

theorem seqCost_cons (self : Recognizer) (fuel : Nat) (tr : transition) (rest : state) :
    seqCost self (fuel + 1) (tr :: rest) =
      1 + seqCost self fuel (self.getD (ToState tr) []) + seqCost self (fuel + 1) rest := rfl

theorem getBytes_cons (p : pathNode) (r : List pathNode) :
    getBytes (p :: r) = getBytes r ++ [Trigger p.CurrentTransition] := by
  unfold getBytes
  simp

theorem drop_cursor {s : state} {c : Nat} (h : c < s.length) :
    s.drop c = pathNode.CurrentTransition ⟨s, c⟩ :: s.drop (c + 1) :=
  drop_eq_getD_cons h

/-- On an acyclic pool, `seqCost` stabilizes once the fuel exceeds a bound
on the destination ids. -/
theorem seqCost_stable {self : Recognizer} (hwf : Wf self) :
    ∀ f₁ f₂ j, j < f₁ → j < f₂ → ∀ st : state, (∀ tr ∈ st, ToState tr < j) →
      seqCost self f₁ st = seqCost self f₂ st := by
  intro f₁
  induction f₁ with
  | zero => intro f₂ j h₁; exact absurd h₁ (Nat.not_lt_zero j)
  | succ a ih =>
      intro f₂ j h₁ h₂ st
      cases f₂ with
      | zero => exact absurd h₂ (Nat.not_lt_zero j)
      | succ b =>
          induction st with
          | nil => intro _; rw [seqCost_nil, seqCost_nil]
          | cons tr rest ihst =>
              intro hb
              rw [seqCost_cons, seqCost_cons]
              have hq : ToState tr < j := hb tr (by simp)
              have hc := ih b (ToState tr) (by omega) (by omega) (self.getD (ToState tr) [])
                (fun tr' h' => hwf (ToState tr) tr' h')
              have hr := ihst (fun t ht => hb t (by simp [ht]))
              omega

/-- Likewise for the reference traversal itself. -/
theorem seqState_stable {self : Recognizer} {con : Constraints} (hwf : Wf self) :
    ∀ f₁ f₂ j, j < f₁ → j < f₂ → ∀ st : state, (∀ tr ∈ st, ToState tr < j) →
      ∀ d pre, seqState self con f₁ d pre st = seqState self con f₂ d pre st := by
  intro f₁
  induction f₁ with
  | zero => intro f₂ j h₁; exact absurd h₁ (Nat.not_lt_zero j)
  | succ a ih =>
      intro f₂ j h₁ h₂ st
      cases f₂ with
      | zero => exact absurd h₂ (Nat.not_lt_zero j)
      | succ b =>
          induction st with
          | nil => intro _ d pre; rw [seqState_nil, seqState_nil]
          | cons tr rest ihst =>
              intro hb d pre
              rw [seqState_cons, seqState_cons]
              have hq : ToState tr < j := hb tr (by simp)
              have hc := ih b (ToState tr) (by omega) (by omega) (self.getD (ToState tr) [])
                (fun tr' h' => hwf (ToState tr) tr' h') (d + 1) (pre ++ [Trigger tr])
              have hr := ihst (fun t ht => hb t (by simp [ht])) d pre
              rw [hc, hr]

/-- The iteration count is below the fuel bound `stWork` computes. -/
theorem seqCost_lt_stWork (self : Recognizer) :
    ∀ fuel st, seqCost self fuel st < stWork self fuel st := by
  intro fuel
  induction fuel with
  | zero => intro st; exact Nat.zero_lt_one
  | succ f ih =>
      intro st
      induction st with
      | nil => exact Nat.zero_lt_one
      | cons tr rest ihst =>
          have h1 := ih (self.getD (ToState tr) [])
          have e1 : seqCost self (f + 1) (tr :: rest) =
              1 + seqCost self f (self.getD (ToState tr) []) + seqCost self (f + 1) rest := rfl
          have e2 : stWork self (f + 1) (tr :: rest) =
              1 + (1 + stWork self f (self.getD (ToState tr) []) +
                rest.foldr (fun t acc => 1 + stWork self f (self.getD (ToState t) []) + acc) 0) :=
            rfl
          have e3 : stWork self (f + 1) rest =
              1 + rest.foldr (fun t acc => 1 + stWork self f (self.getD (ToState t) []) + acc) 0 :=
            rfl
          omega

/-- Popping cascades preserve the reference value of the stack. -/
theorem popCascade_seq {self : Recognizer} {con : Constraints}
    (hconV : ∀ d b, con.IsValueAllowed d b = true) :
    ∀ rest : List pathNode,
      stackSeq self con (popCascade con rest) = restSeq self con rest := by
  intro rest
  induction rest with
  | nil => rfl
  | cons p r ih =>
      simp only [popCascade]
      rw [advanceIdx_id (fun x => hconV r.length x)]
      by_cases hex : (⟨p.s, p.c + 1⟩ : pathNode).Exhausted = true
      · rw [if_pos hex, ih]
        have hlen : p.s.length ≤ p.c + 1 := by
          simpa [pathNode.Exhausted] using hex
        show restSeq self con r = restSeq self con (p :: r)
        show restSeq self con r =
          seqState self con (self.length + 1) r.length (getBytes r) (p.s.drop (p.c + 1)) ++
            restSeq self con r
        rw [List.drop_eq_nil_of_le hlen, seqState_nil, List.nil_append]
      · rw [if_neg hex]
        rfl

/-- Popping cascades preserve the iteration count of the stack. -/
theorem popCascade_cost {self : Recognizer} {con : Constraints}
    (hconV : ∀ d b, con.IsValueAllowed d b = true) :
    ∀ rest : List pathNode,
      stackCost self (popCascade con rest) = restCost self rest := by
  intro rest
  induction rest with
  | nil => rfl
  | cons p r ih =>
      simp only [popCascade]
      rw [advanceIdx_id (fun x => hconV r.length x)]
      by_cases hex : (⟨p.s, p.c + 1⟩ : pathNode).Exhausted = true
      · rw [if_pos hex, ih]
        have hlen : p.s.length ≤ p.c + 1 := by
          simpa [pathNode.Exhausted] using hex
        show restCost self r =
          seqCost self (self.length + 1) (p.s.drop (p.c + 1)) + restCost self r
        rw [List.drop_eq_nil_of_le hlen, seqCost_nil]
        omega
      · rw [if_neg hex]
        rfl

theorem popCascade_ok {self : Recognizer} {con : Constraints} :
    ∀ rest : List pathNode, StackOk self rest → StackOk self (popCascade con rest) := by
  intro rest
  induction rest with
  | nil => intro h; exact h
  | cons p r ih =>
      intro h
      simp only [popCascade]
      by_cases hex : (⟨p.s, advanceIdx p.s (fun x => con.IsValueAllowed r.length x)
          (p.c + 1)⟩ : pathNode).Exhausted = true
      · rw [if_pos hex]
        exact ih (fun q hq => h q (by simp [hq]))
      · rw [if_neg hex]
        intro q hq
        rcases List.mem_cons.mp hq with rfl | hq'
        · exact h p (by simp)
        · exact h q (by simp [hq'])

theorem popCascade_head (con : Constraints) :
    ∀ rest : List pathNode, popCascade con rest = [] ∨
      ∃ t r', popCascade con rest = t :: r' ∧ t.Exhausted = false := by
  intro rest
  induction rest with
  | nil => exact Or.inl rfl
  | cons p r ih =>
      simp only [popCascade]
      by_cases hex : (⟨p.s, advanceIdx p.s (fun x => con.IsValueAllowed r.length x)
          (p.c + 1)⟩ : pathNode).Exhausted = true
      · rw [if_pos hex]
        exact ih
      · rw [if_neg hex]
        refine Or.inr ⟨_, r, rfl, ?_⟩
        simpa using hex

/-- `popExhausted` preserves the reference value of the stack. -/
theorem popExhausted_seq {self : Recognizer} {con : Constraints}
    (hconV : ∀ d b, con.IsValueAllowed d b = true) :
    ∀ rpath : List pathNode,
      stackSeq self con (popExhausted con rpath) = stackSeq self con rpath := by
  intro rpath
  cases rpath with
  | nil => rfl
  | cons top rest =>
      simp only [popExhausted]
      by_cases hex : top.Exhausted = true
      · rw [if_pos hex, popCascade_seq hconV]
        have hlen : top.s.length ≤ top.c := by
          simpa [pathNode.Exhausted] using hex
        show restSeq self con rest =
          seqState self con (self.length + 1) rest.length (getBytes rest)
            (top.s.drop top.c) ++ restSeq self con rest
        rw [List.drop_eq_nil_of_le hlen, seqState_nil, List.nil_append]
      · rw [if_neg hex]

/-- `popExhausted` preserves the iteration count of the stack. -/
theorem popExhausted_cost {self : Recognizer} {con : Constraints}
    (hconV : ∀ d b, con.IsValueAllowed d b = true) :
    ∀ rpath : List pathNode,
      stackCost self (popExhausted con rpath) = stackCost self rpath := by
  intro rpath
  cases rpath with
  | nil => rfl
  | cons top rest =>
      simp only [popExhausted]
      by_cases hex : top.Exhausted = true
      · rw [if_pos hex, popCascade_cost hconV]
        have hlen : top.s.length ≤ top.c := by
          simpa [pathNode.Exhausted] using hex
        show restCost self rest =
          seqCost self (self.length + 1) (top.s.drop top.c) + restCost self rest
        rw [List.drop_eq_nil_of_le hlen, seqCost_nil]
        omega
      · rw [if_neg hex]

theorem popExhausted_ok {self : Recognizer} {con : Constraints} :
    ∀ rpath : List pathNode, StackOk self rpath → StackOk self (popExhausted con rpath) := by
  intro rpath
  cases rpath with
  | nil => intro h; exact h
  | cons top rest =>
      intro h
      simp only [popExhausted]
      by_cases hex : top.Exhausted = true
      · rw [if_pos hex]
        exact popCascade_ok rest (fun q hq => h q (by simp [hq]))
      · rw [if_neg hex]
        exact h

theorem popExhausted_head (con : Constraints) :
    ∀ rpath : List pathNode, popExhausted con rpath = [] ∨
      ∃ t r', popExhausted con rpath = t :: r' ∧ t.Exhausted = false := by
  intro rpath
  cases rpath with
  | nil => exact Or.inl rfl
  | cons top rest =>
      simp only [popExhausted]
      by_cases hex : top.Exhausted = true
      · rw [if_pos hex]
        exact popCascade_head con rest
      · rw [if_neg hex]
        refine Or.inr ⟨top, rest, rfl, ?_⟩
        simpa using hex

/-- **The stack machine computes the recursive reference.**  With enough
fuel, on an acyclic pool, with a constraint whose per-value filter is
constantly true, one `csLoop` run from any well-formed stack produces
`stackSeq` of that stack. -/
theorem csLoop_eq_stackSeq {self : Recognizer} {con : Constraints} (hwf : Wf self)
    (hconV : ∀ d b, con.IsValueAllowed d b = true) :
    ∀ fuel rpath, StackOk self rpath → stackCost self rpath < fuel →
      csLoop self con fuel rpath = stackSeq self con rpath := by
  intro fuel
  induction fuel with
  | zero => intro rpath _ hcost; exact absurd hcost (Nat.not_lt_zero _)
  | succ f ih =>
      intro rpath hok hcost
      rcases popExhausted_head con rpath with hpe | ⟨top, rest, hpe, hexf⟩
      · have h1 : csLoop self con (f + 1) rpath = [] := by
          unfold csLoop
          rw [hpe]
        have h2 : stackSeq self con rpath = [] := by
          rw [← popExhausted_seq hconV rpath, hpe]
          rfl
        rw [h1, h2]
      · have hokP : StackOk self (top :: rest) := by
          rw [← hpe]
          exact popExhausted_ok rpath hok
        have hcostP : stackCost self (top :: rest) < f + 1 := by
          rw [← hpe, popExhausted_cost hconV]
          exact hcost
        have hclt : top.c < top.s.length := by
          simp [pathNode.Exhausted] at hexf
          omega
        have hdrop : top.s.drop top.c = top.CurrentTransition :: top.s.drop (top.c + 1) :=
          drop_cursor hclt
        have htr_mem : top.CurrentTransition ∈ top.s := getD_mem_of_lt hclt
        have hdest : ToState top.CurrentTransition < self.length :=
          hokP top (by simp) _ htr_mem
        have hchildOk : ∀ tr' ∈ self.getD (ToState top.CurrentTransition) [],
            ToState tr' < ToState top.CurrentTransition :=
          fun tr' h' => hwf _ tr' h'
        have hstep : csLoop self con (f + 1) rpath =
            (if IsTerminal top.CurrentTransition && con.IsLargeEnough (rest.length + 1) then
              if con.IsSequenceAllowed (getBytes (top :: rest)) then [getBytes (top :: rest)]
              else []
            else []) ++
            csLoop self con f
              (if !(self.getD (ToState top.CurrentTransition) []).isEmpty &&
                  con.IsSmallEnough (rest.length + 2) then
                ⟨self.getD (ToState top.CurrentTransition) [],
                  advanceIdx (self.getD (ToState top.CurrentTransition) [])
                    (fun b => con.IsValueAllowed (rest.length + 1) b) 0⟩ :: top :: rest
              else
                ⟨top.s, advanceIdx top.s (fun b => con.IsValueAllowed rest.length b)
                    (top.c + 1)⟩ :: rest) := by
          rw [csLoop.eq_2, hpe]
        rw [hstep]
        have hRHS : stackSeq self con rpath =
            seqState self con (self.length + 1) rest.length (getBytes rest)
              (top.s.drop top.c) ++ restSeq self con rest := by
          rw [← popExhausted_seq hconV rpath, hpe]
          rfl
        rw [hRHS, hdrop, seqState_cons,
          if_pos (hconV rest.length (Trigger top.CurrentTransition))]
        have hemit :
            (if IsTerminal top.CurrentTransition && con.IsLargeEnough (rest.length + 1) then
              if con.IsSequenceAllowed (getBytes (top :: rest)) then [getBytes (top :: rest)]
              else []
            else []) =
            (if IsTerminal top.CurrentTransition && con.IsLargeEnough (rest.length + 1) &&
                con.IsSequenceAllowed (getBytes rest ++ [Trigger top.CurrentTransition]) then
              [getBytes rest ++ [Trigger top.CurrentTransition]]
            else []) := by
          rw [getBytes_cons]
          cases h1 : IsTerminal top.CurrentTransition && con.IsLargeEnough (rest.length + 1) <;>
            simp [h1]
        rw [hemit, List.append_assoc, List.append_assoc]
        congr 1
        have c3 : seqCost self (self.length + 1) (top.s.drop top.c) =
            1 + seqCost self self.length (self.getD (ToState top.CurrentTransition) []) +
              seqCost self (self.length + 1) (top.s.drop (top.c + 1)) := by
          rw [hdrop, seqCost_cons]
        have hc1 : stackCost self (top :: rest) =
            seqCost self (self.length + 1) (top.s.drop top.c) + restCost self rest := rfl
        cases hD : !(self.getD (ToState top.CurrentTransition) []).isEmpty &&
            con.IsSmallEnough (rest.length + 2)
        · have hdneg : ¬((false : Bool) = true) := by simp
          rw [if_neg hdneg, if_neg hdneg, List.nil_append,
            advanceIdx_id (fun x => hconV rest.length x)]
          have hok' : StackOk self (⟨top.s, top.c + 1⟩ :: rest) := by
            intro q hq
            rcases List.mem_cons.mp hq with rfl | hq'
            · exact hokP top (by simp)
            · exact hokP q (by simp [hq'])
          have hc2 : stackCost self (⟨top.s, top.c + 1⟩ :: rest) =
              seqCost self (self.length + 1) (top.s.drop (top.c + 1)) + restCost self rest :=
            rfl
          have hcost' : stackCost self (⟨top.s, top.c + 1⟩ :: rest) < f := by omega
          rw [ih _ hok' hcost']
          rfl
        · rw [if_pos rfl, if_pos rfl,
            advanceIdx_id (fun x => hconV (rest.length + 1) x)]
          have hok' : StackOk self
              (⟨self.getD (ToState top.CurrentTransition) [], 0⟩ :: top :: rest) := by
            intro q hq
            rcases List.mem_cons.mp hq with rfl | hq'
            · exact fun tr' h' => lt_trans (hwf _ tr' h') hdest
            · exact hokP q hq'
          have c4 : seqCost self self.length (self.getD (ToState top.CurrentTransition) []) =
              seqCost self (self.length + 1) (self.getD (ToState top.CurrentTransition) []) :=
            seqCost_stable hwf self.length (self.length + 1) (ToState top.CurrentTransition)
              hdest (by omega) _ hchildOk
          have hc2 : stackCost self
              (⟨self.getD (ToState top.CurrentTransition) [], 0⟩ :: top :: rest) =
              seqCost self (self.length + 1)
                  ((self.getD (ToState top.CurrentTransition) []).drop 0) +
                (seqCost self (self.length + 1) (top.s.drop (top.c + 1)) + restCost self rest) :=
            rfl
          rw [List.drop_zero] at hc2
          have hcost' : stackCost self
              (⟨self.getD (ToState top.CurrentTransition) [], 0⟩ :: top :: rest) < f := by
            omega
          rw [ih _ hok' hcost']
          have hL : stackSeq self con
              (⟨self.getD (ToState top.CurrentTransition) [], 0⟩ :: top :: rest) =
              seqState self con (self.length + 1) (rest.length + 1)
                  (getBytes rest ++ [Trigger top.CurrentTransition])
                  (self.getD (ToState top.CurrentTransition) []) ++
                (seqState self con (self.length + 1) rest.length (getBytes rest)
                    (top.s.drop (top.c + 1)) ++ restSeq self con rest) := by
            show seqState self con (self.length + 1) (top :: rest).length
                (getBytes (top :: rest))
                ((self.getD (ToState top.CurrentTransition) []).drop 0) ++
                restSeq self con (top :: rest) = _
            rw [List.drop_zero, getBytes_cons]
            rfl
          rw [hL,
            seqState_stable hwf (self.length + 1) self.length (ToState top.CurrentTransition)
              (by omega) hdest _ hchildOk (rest.length + 1)
              (getBytes rest ++ [Trigger top.CurrentTransition])]

/-- On an acyclic pool, with a constraint whose per-value filter is
constantly true, `ConstrainedSequences` is the recursive depth-first
reference from the start state. -/
theorem ConstrainedSequences_eq {self : Recognizer} {con : Constraints} (hwf : Wf self)
    (hconV : ∀ d b, con.IsValueAllowed d b = true) :
    ConstrainedSequences self con =
      seqState self con (self.length + 1) 0 [] (Start self) := by
  unfold ConstrainedSequences
  rw [advanceIdx_id (fun x => hconV 0 x)]
  have hok0 : StackOk self [⟨Start self, 0⟩] := by
    intro q hq
    have hq' : q = ⟨Start self, 0⟩ := by simpa using hq
    subst hq'
    intro tr htr
    have htr' : tr ∈ self.getD (self.length - 1) [] := htr
    exact Wf_dest_lt_length hwf tr htr'
  have hcost0 : stackCost self [⟨Start self, 0⟩] < csFuel self := by
    show seqCost self (self.length + 1) ((Start self).drop 0) + restCost self [] < csFuel self
    rw [List.drop_zero]
    have h1 := seqCost_lt_stWork self (self.length + 1) (Start self)
    show seqCost self (self.length + 1) (Start self) + 0 <
      2 * stWork self (self.length + 1) (Start self) + 2
    omega
  rw [csLoop_eq_stackSeq hwf hconV (csFuel self) _ hok0 hcost0]
  show seqState self con (self.length + 1) 0 [] ((Start self).drop 0) ++
      ([] : List (List Nat)) =
    seqState self con (self.length + 1) 0 [] (Start self)
  rw [List.drop_zero, List.append_nil]

/-! ## What the recursive reference emits -/

/-- Acceptance is monotone in the transition set of the root state. -/
theorem Accepts_of_subset {self : List state} {st st' : state}
    (hsub : ∀ t ∈ st, t ∈ st') {s : List Nat} (h : Accepts self st s) :
    Accepts self st' s := by
  cases h with
  | last hm ht => exact Accepts.last (hsub _ hm) ht
  | step hm hne hs => exact Accepts.step (hsub _ hm) hne hs

/-- Case split of acceptance on the first transition of the state. -/
theorem Accepts_state_cons {self : List state} {tr : transition} {strest : state}
    {s : List Nat} :
    Accepts self (tr :: strest) s ↔
      (s = [Trigger tr] ∧ IsTerminal tr = true) ∨
      (∃ s', s = Trigger tr :: s' ∧ s' ≠ [] ∧
        Accepts self (self.getD (ToState tr) []) s') ∨
      Accepts self strest s := by
  constructor
  · intro h
    cases h with
    | last hm ht =>
        rcases List.mem_cons.mp hm with heq | hm'
        · subst heq
          exact Or.inl ⟨rfl, ht⟩
        · exact Or.inr (Or.inr (Accepts.last hm' ht))
    | step hm hne hs =>
        rcases List.mem_cons.mp hm with heq | hm'
        · subst heq
          exact Or.inr (Or.inl ⟨_, rfl, hne, hs⟩)
        · exact Or.inr (Or.inr (Accepts.step hm' hne hs))
  · rintro (⟨rfl, ht⟩ | ⟨s', rfl, hne, hs⟩ | h)
    · exact Accepts.last (by simp) ht
    · exact Accepts.step (by simp) hne hs
    · exact Accepts_of_subset (fun t ht' => by simp [ht']) h

/-- **Membership in the reference traversal.**  With the per-value and
per-sequence filters constantly true, the traversal below `st` at depth
`d` emits exactly the accepted extensions of `pre` whose final length
passes `IsLargeEnough` and whose every descent (lengths `2 … |s|`,
counted from the depth) passed `IsSmallEnough`.  A length-1 emission is
*not* gated by `IsSmallEnough` — the escape behind the `max = 0` window
counterexample. -/
theorem mem_seqState {self : Recognizer} {con : Constraints} (hwf : Wf self)
    (hconV : ∀ d b, con.IsValueAllowed d b = true)
    (hconSeq : ∀ b, con.IsSequenceAllowed b = true) :
    ∀ fuel st, (∀ tr ∈ st, ToState tr < fuel) → ∀ d pre x,
      (x ∈ seqState self con fuel d pre st ↔
        ∃ s, x = pre ++ s ∧ Accepts self st s ∧
          con.IsLargeEnough (d + s.length) = true ∧
          ∀ i, 2 ≤ i → i ≤ s.length → con.IsSmallEnough (d + i) = true) := by
  intro fuel
  induction fuel with
  | zero =>
      intro st hb d pre x
      constructor
      · intro h
        exact absurd h (List.not_mem_nil x)
      · rintro ⟨s, rfl, hacc, _, _⟩
        cases hacc with
        | last hm _ => exact absurd (hb _ hm) (Nat.not_lt_zero _)
        | step hm _ _ => exact absurd (hb _ hm) (Nat.not_lt_zero _)
  | succ f ihf =>
      intro st
      induction st with
      | nil =>
          intro _ d pre x
          rw [seqState_nil]
          constructor
          · intro h
            exact absurd h (List.not_mem_nil x)
          · rintro ⟨s, rfl, hacc, _, _⟩
            exact (Accepts_empty hacc).elim
      | cons tr strest ihst =>
          intro hb d pre x
          rw [seqState_cons, if_pos (hconV d (Trigger tr)), List.append_assoc,
            List.mem_append, List.mem_append]
          have hmemA : (x ∈ if IsTerminal tr && con.IsLargeEnough (d + 1) &&
                con.IsSequenceAllowed (pre ++ [Trigger tr]) then [pre ++ [Trigger tr]]
              else []) ↔
              (IsTerminal tr = true ∧ con.IsLargeEnough (d + 1) = true ∧
                x = pre ++ [Trigger tr]) := by
            constructor
            · intro hx
              by_cases hC : (IsTerminal tr && con.IsLargeEnough (d + 1) &&
                  con.IsSequenceAllowed (pre ++ [Trigger tr])) = true
              · rw [if_pos hC] at hx
                have hx' : x = pre ++ [Trigger tr] := by simpa using hx
                simp only [Bool.and_eq_true] at hC
                exact ⟨hC.1.1, hC.1.2, hx'⟩
              · rw [if_neg hC] at hx
                exact absurd hx (List.not_mem_nil x)
            · rintro ⟨h1, h2, rfl⟩
              rw [if_pos (by simp [h1, h2, hconSeq])]
              simp
          have hmemB : (x ∈ if !(self.getD (ToState tr) []).isEmpty &&
                con.IsSmallEnough (d + 2) then
                seqState self con f (d + 1) (pre ++ [Trigger tr])
                  (self.getD (ToState tr) [])
              else []) ↔
              (con.IsSmallEnough (d + 2) = true ∧
                x ∈ seqState self con f (d + 1) (pre ++ [Trigger tr])
                  (self.getD (ToState tr) [])) := by
            constructor
            · intro hx
              by_cases hC : (!(self.getD (ToState tr) []).isEmpty &&
                  con.IsSmallEnough (d + 2)) = true
              · rw [if_pos hC] at hx
                simp only [Bool.and_eq_true] at hC
                exact ⟨hC.2, hx⟩
              · rw [if_neg hC] at hx
                exact absurd hx (List.not_mem_nil x)
            · rintro ⟨hSm, hx⟩
              have hne : self.getD (ToState tr) [] ≠ [] := by
                intro hcontra
                rw [hcontra, seqState_nil] at hx
                exact absurd hx (List.not_mem_nil x)
              have hE : (self.getD (ToState tr) []).isEmpty = false := by
                simpa using hne
              rw [if_pos (by rw [hE, hSm]; rfl)]
              exact hx
          have hbChild : ∀ tr' ∈ self.getD (ToState tr) [], ToState tr' < f := by
            intro tr' h'
            have h1 := hwf _ tr' h'
            have h2 := hb tr (by simp)
            omega
          rw [hmemA, hmemB, ihst (fun t ht => hb t (by simp [ht])) d pre x,
            ihf (self.getD (ToState tr) []) hbChild (d + 1) (pre ++ [Trigger tr]) x]
          constructor
          · rintro (⟨hT, hL, rfl⟩ | ⟨hSm, s', rfl, hacc, hL, hSmAll⟩ |
              ⟨s, rfl, hacc, hL, hSmAll⟩)
            · refine ⟨[Trigger tr], rfl, Accepts.last (by simp) hT, by simpa using hL,
                fun i h2 h1 => ?_⟩
              simp at h1
              omega
            · refine ⟨Trigger tr :: s', by simp,
                Accepts.step (by simp) (fun hc => Accepts_not_nil (hc ▸ hacc)) hacc,
                ?_, ?_⟩
              · simp only [List.length_cons]
                rw [show d + (s'.length + 1) = d + 1 + s'.length from by omega]
                exact hL
              · intro i h2 hle
                simp only [List.length_cons] at hle
                by_cases hi2 : i = 2
                · subst hi2
                  exact hSm
                · have hx := hSmAll (i - 1) (by omega) (by omega)
                  rw [show d + 1 + (i - 1) = d + i from by omega] at hx
                  exact hx
            · exact ⟨s, rfl, Accepts_of_subset (fun t ht => by simp [ht]) hacc, hL, hSmAll⟩
          · rintro ⟨s, rfl, hacc, hL, hSmAll⟩
            rcases Accepts_state_cons.mp hacc with ⟨rfl, hT⟩ | ⟨s', rfl, hne, hacc'⟩ | hacc'
            · exact Or.inl ⟨hT, by simpa using hL, rfl⟩
            · refine Or.inr (Or.inl ⟨?_, s', by simp, hacc', ?_, ?_⟩)
              · have hlen1 : 1 ≤ s'.length := List.length_pos.mpr hne
                have hx := hSmAll 2 (Nat.le_refl 2) (by simp; omega)
                exact hx
              · have hx := hL
                simp only [List.length_cons] at hx
                rw [show d + (s'.length + 1) = d + 1 + s'.length from by omega] at hx
                exact hx
              · intro i h2 hle
                have hx := hSmAll (i + 1) (by omega) (by simp; omega)
                rw [show d + (i + 1) = d + 1 + i from by omega] at hx
                exact hx
            · exact Or.inr (Or.inr ⟨s, rfl, hacc', hL, hSmAll⟩)

/-- **The reference traversal emits in strictly ascending lexicographic
order** (so, with no duplicates): states are stored trigger-sorted, each
emitted path is extended before the cursor moves on, and a prefix sorts
before its extensions. -/
theorem seqState_sorted {self : Recognizer} {con : Constraints} (hwf : Wf self)
    (hconV : ∀ d b, con.IsValueAllowed d b = true)
    (hTrigAll : ∀ j, TrigMono (self.getD j [])) :
    ∀ fuel st, (∀ tr ∈ st, ToState tr < fuel) → TrigMono st → ∀ d pre,
      (seqState self con fuel d pre st).Pairwise (fun a b => lexLt a b = true) ∧
      ∀ x ∈ seqState self con fuel d pre st, ∃ tr ∈ st, ∃ t, x = pre ++ Trigger tr :: t := by
  intro fuel
  induction fuel with
  | zero =>
      intro st _ _ d pre
      exact ⟨List.Pairwise.nil, fun x hx => absurd hx (List.not_mem_nil x)⟩
  | succ f ihf =>
      intro st
      induction st with
      | nil =>
          intro _ _ d pre
          rw [seqState_nil]
          exact ⟨List.Pairwise.nil, fun x hx => absurd hx (List.not_mem_nil x)⟩
      | cons tr strest ihst =>
          intro hb hmono d pre
          have hheadLt : ∀ t ∈ strest, Trigger tr < Trigger t :=
            (List.pairwise_cons.mp hmono).1
          have hmonoRest : TrigMono strest := (List.pairwise_cons.mp hmono).2
          have hbChild : ∀ tr' ∈ self.getD (ToState tr) [], ToState tr' < f := by
            intro tr' h'
            have h1 := hwf _ tr' h'
            have h2 := hb tr (by simp)
            omega
          have hchild := ihf (self.getD (ToState tr) []) hbChild (hTrigAll (ToState tr))
            (d + 1) (pre ++ [Trigger tr])
          have hrest := ihst (fun t ht => hb t (by simp [ht])) hmonoRest d pre
          rw [seqState_cons, if_pos (hconV d (Trigger tr)), List.append_assoc]
          have hAmem : ∀ x ∈ (if IsTerminal tr && con.IsLargeEnough (d + 1) &&
                con.IsSequenceAllowed (pre ++ [Trigger tr]) then [pre ++ [Trigger tr]]
              else ([] : List (List Nat))), x = pre ++ Trigger tr :: [] := by
            intro x hx
            by_cases hc : (IsTerminal tr && con.IsLargeEnough (d + 1) &&
                con.IsSequenceAllowed (pre ++ [Trigger tr])) = true
            · rw [if_pos hc] at hx
              simpa using hx
            · rw [if_neg hc] at hx
              exact absurd hx (List.not_mem_nil x)
          have hBmem : ∀ x ∈ (if !(self.getD (ToState tr) []).isEmpty &&
                con.IsSmallEnough (d + 2) then
                seqState self con f (d + 1) (pre ++ [Trigger tr]) (self.getD (ToState tr) [])
              else ([] : List (List Nat))),
              ∃ c t', x = pre ++ Trigger tr :: c :: t' := by
            intro x hx
            by_cases hc : (!(self.getD (ToState tr) []).isEmpty &&
                con.IsSmallEnough (d + 2)) = true
            · rw [if_pos hc] at hx
              obtain ⟨tr', _, t', hx'⟩ := hchild.2 x hx
              exact ⟨Trigger tr', t', by rw [hx']; simp⟩
            · rw [if_neg hc] at hx
              exact absurd hx (List.not_mem_nil x)
          have hCmem := hrest.2
          have hPA : (if IsTerminal tr && con.IsLargeEnough (d + 1) &&
                con.IsSequenceAllowed (pre ++ [Trigger tr]) then [pre ++ [Trigger tr]]
              else ([] : List (List Nat))).Pairwise (fun a b => lexLt a b = true) := by
            by_cases hc : (IsTerminal tr && con.IsLargeEnough (d + 1) &&
                con.IsSequenceAllowed (pre ++ [Trigger tr])) = true
            · rw [if_pos hc]
              exact List.pairwise_singleton _ _
            · rw [if_neg hc]
              exact List.Pairwise.nil
          have hPB : (if !(self.getD (ToState tr) []).isEmpty &&
                con.IsSmallEnough (d + 2) then
                seqState self con f (d + 1) (pre ++ [Trigger tr]) (self.getD (ToState tr) [])
              else ([] : List (List Nat))).Pairwise (fun a b => lexLt a b = true) := by
            by_cases hc : (!(self.getD (ToState tr) []).isEmpty &&
                con.IsSmallEnough (d + 2)) = true
            · rw [if_pos hc]
              exact hchild.1
            · rw [if_neg hc]
              exact List.Pairwise.nil
          constructor
          · rw [List.pairwise_append]
            refine ⟨hPA, ?_, ?_⟩
            · rw [List.pairwise_append]
              refine ⟨hPB, hrest.1, ?_⟩
              intro a ha b hb'
              obtain ⟨ca, ta, rfl⟩ := hBmem a ha
              obtain ⟨trb, htrb, tb, rfl⟩ := hCmem b hb'
              have hlt := hheadLt trb htrb
              rw [show pre ++ Trigger tr :: ca :: ta = pre ++ (Trigger tr :: ca :: ta) from rfl,
                show pre ++ Trigger trb :: tb = pre ++ (Trigger trb :: tb) from rfl,
                lexLt_append_same, lexLt_cons_cons]
              simp [hlt]
            · intro a ha b hb'
              have ha' := hAmem a ha
              subst ha'
              rcases List.mem_append.mp hb' with hbB | hbC
              · obtain ⟨cb, tb, rfl⟩ := hBmem b hbB
                rw [show pre ++ Trigger tr :: ([] : List Nat) = pre ++ (Trigger tr :: [])
                    from rfl,
                  show pre ++ Trigger tr :: cb :: tb = pre ++ (Trigger tr :: cb :: tb)
                    from rfl,
                  lexLt_append_same, lexLt_cons_cons]
                simp [lexLt]
              · obtain ⟨trb, htrb, tb, rfl⟩ := hCmem b hbC
                have hlt := hheadLt trb htrb
                rw [show pre ++ Trigger tr :: ([] : List Nat) = pre ++ (Trigger tr :: [])
                    from rfl,
                  show pre ++ Trigger trb :: tb = pre ++ (Trigger trb :: tb) from rfl,
                  lexLt_append_same, lexLt_cons_cons]
                simp [hlt]
          · intro x hx
            rcases List.mem_append.mp hx with hxA | hx'
            · exact ⟨tr, by simp, [], hAmem x hxA⟩
            · rcases List.mem_append.mp hx' with hxB | hxC
              · obtain ⟨c, t', rfl⟩ := hBmem x hxB
                exact ⟨tr, by simp, c :: t', rfl⟩
              · obtain ⟨trb, htrb, tb, hxb⟩ := hCmem x hxC
                exact ⟨trb, by simp [htrb], tb, hxb⟩

/-! ## Strictly sorted lists with the same members are equal -/

theorem lexLt_asymm {a b : List Nat} (h1 : lexLt a b = true) (h2 : lexLt b a = true) :
    False := by
  have h3 := lexLt_trans h1 h2
  rw [lexLt_irrefl] at h3
  cases h3

theorem sorted_eq_of_mem_iff : ∀ {l m : List (List Nat)},
    l.Pairwise (fun a b => lexLt a b = true) →
    m.Pairwise (fun a b => lexLt a b = true) →
    (∀ x, x ∈ l ↔ x ∈ m) → l = m := by
  intro l
  induction l with
  | nil =>
      intro m _ _ h
      cases m with
      | nil => rfl
      | cons b m' => exact absurd ((h b).mpr (by simp)) (List.not_mem_nil b)
  | cons a l' ih =>
      intro m hl hm h
      cases m with
      | nil => exact absurd ((h a).mp (by simp)) (List.not_mem_nil a)
      | cons b m' =>
          have hlh := List.pairwise_cons.mp hl
          have hmh := List.pairwise_cons.mp hm
          have hab : a = b := by
            by_cases hEq : a = b
            · exact hEq
            · exfalso
              have ham : a ∈ b :: m' := (h a).mp (by simp)
              have hbm : b ∈ a :: l' := (h b).mpr (by simp)
              have ha' : a ∈ m' := by
                rcases List.mem_cons.mp ham with h1 | h1
                · exact absurd h1 hEq
                · exact h1
              have hb' : b ∈ l' := by
                rcases List.mem_cons.mp hbm with h1 | h1
                · exact absurd h1.symm hEq
                · exact h1
              exact lexLt_asymm (hlh.1 b hb') (hmh.1 a ha')
          subst hab
          have htails : ∀ x, x ∈ l' ↔ x ∈ m' := by
            intro x
            constructor
            · intro hx
              have hx1 : x ∈ a :: m' := (h x).mp (by simp [hx])
              rcases List.mem_cons.mp hx1 with h1 | h1
              · exfalso
                have h2 := hlh.1 x hx
                rw [h1, lexLt_irrefl] at h2
                cases h2
              · exact h1
            · intro hx
              have hx1 : x ∈ a :: l' := (h x).mpr (by simp [hx])
              rcases List.mem_cons.mp hx1 with h1 | h1
              · exfalso
                have h2 := hmh.1 x hx
                rw [h1, lexLt_irrefl] at h2
                cases h2
              · exact h1
          rw [ih hlh.2 hmh.2 htails]

theorem chain_lt_mem : ∀ (l : List (List Nat)) (a b : List Nat),
    List.Chain' (fun u v => lexLt u v = true) (a :: l) → b ∈ l → lexLt a b = true := by
  intro l
  induction l with
  | nil => intro a b _ hb; cases hb
  | cons c l' ih =>
      intro a b hch hb
      have h1 : lexLt a c = true := (List.chain'_cons.mp hch).1
      rcases List.mem_cons.mp hb with rfl | hb'
      · exact h1
      · exact lexLt_trans h1 (ih c b (List.chain'_cons.mp hch).2 hb')

theorem pairwise_of_chain' : ∀ {l : List (List Nat)},
    List.Chain' (fun u v => lexLt u v = true) l →
    l.Pairwise (fun u v => lexLt u v = true) := by
  intro l
  induction l with
  | nil => intro _; exact List.Pairwise.nil
  | cons a l' ih =>
      intro h
      rw [List.pairwise_cons]
      have htail : List.Chain' (fun u v => lexLt u v = true) l' := by
        cases l' with
        | nil => exact trivial
        | cons c l'' => exact (List.chain'_cons.mp h).2
      exact ⟨fun b hb => chain_lt_mem l' a b h hb, ih htail⟩

/-- **C2** — Build–enumerate round trip: building from a strictly
ascending stream of non-empty byte sequences (bytes `< 256`, total size
within the 23-bit id capacity) and enumerating with no constraints
(`AllSequences`, i.e. `ConstrainedSequences` under `BaseConstraints`)
reproduces exactly the input, in the same ascending order, with no
duplicates. -/
theorem C2_build_enumerate_round_trip {values : List (List Nat)}
    (hchain : List.Chain' (fun a c => lexLt a c = true) ([] :: values))
    (hbytes : ∀ w ∈ values, ∀ x ∈ w, x < 256)
    (hcap : (values.map List.length).sum < 8388608) :
    ∃ m, FromChannel values = Except.ok m ∧ AllSequences m = values := by
  obtain ⟨pool, root, hok, hmk, hstart, hwf, hmono, ht32, hlang⟩ :=
    FromChannel_ok hchain hbytes hcap
  refine ⟨pool ++ [root], hok, ?_⟩
  have hconV : ∀ d b, BaseConstraints.IsValueAllowed d b = true := fun _ _ => rfl
  have hconSeq : ∀ b, BaseConstraints.IsSequenceAllowed b = true := fun _ => rfl
  have hAS : AllSequences (pool ++ [root]) =
      seqState (pool ++ [root]) BaseConstraints ((pool ++ [root]).length + 1) 0 []
        (Start (pool ++ [root])) :=
    ConstrainedSequences_eq hwf hconV
  have hbound : ∀ tr ∈ Start (pool ++ [root]), ToState tr < (pool ++ [root]).length + 1 := by
    intro tr htr
    have htr' : tr ∈ (pool ++ [root]).getD ((pool ++ [root]).length - 1) [] := htr
    have h1 := Wf_dest_lt_length hwf tr htr'
    omega
  have hmem : ∀ x, x ∈ AllSequences (pool ++ [root]) ↔ x ∈ values := by
    intro x
    rw [hAS, mem_seqState hwf hconV hconSeq _ _ hbound 0 [] x]
    constructor
    · rintro ⟨s, rfl, hacc, _, _⟩
      rw [hstart] at hacc
      exact (hlang x).mp hacc
    · intro hx
      refine ⟨x, by simp, ?_, rfl, fun i h2 h1 => rfl⟩
      rw [hstart]
      exact (hlang x).mpr hx
  have hmonoS : TrigMono (Start (pool ++ [root])) := by
    have h1 : TrigMono ((pool ++ [root]).getD ((pool ++ [root]).length - 1) []) := hmono _
    exact h1
  have hsortL : (AllSequences (pool ++ [root])).Pairwise (fun a b => lexLt a b = true) := by
    rw [hAS]
    exact (seqState_sorted hwf hconV hmono _ _ hbound hmonoS 0 []).1
  have hsortV : values.Pairwise (fun a b => lexLt a b = true) := by
    apply pairwise_of_chain'
    cases values with
    | nil => exact trivial
    | cons v vs => exact (List.chain'_cons.mp hchain).2
  exact sorted_eq_of_mem_iff hsortL hsortV hmem

/-- C2 at the concrete input `{"A", "AB"}`. -/
theorem C2_build_enumerate_round_trip_witness :
    ∃ m, FromChannel [[65], [65, 66]] = Except.ok m ∧ AllSequences m = [[65], [65, 66]] :=
  C2_build_enumerate_round_trip
    (List.chain'_cons.mpr ⟨by decide,
      List.chain'_cons.mpr ⟨by decide, List.chain'_singleton _⟩⟩)
    (by decide) (by decide)

/-- **C6, counterexample** — the claimed length-window law fails at
`max = 0`: on the set `{"A"}` with the window `[0, 0]` the enumeration
still emits `"A"`, whose length 1 is not `≤ 0`.  (`IsSmallEnough` gates
only the *descents*, so a length-1 sequence is never checked against
`max`.) -/
theorem C6_max_zero_escape :
    FromChannel [[65]] = Except.ok [[], [NewTransition 65 0 true]] ∧
    ConstrainedSequences [[], [NewTransition 65 0 true]] (windowCon 0 0) = [[65]] ∧
    ¬ (([65] : List Nat).length ≤ 0) :=
  ⟨rfl, rfl, by decide⟩

/-- **C6, amended** — Constraint composition for length windows, for
windows with `max ≥ 1`: for any valid ascending input built into a
Recognizer and any `Constraints` implementation whose `IsSmallEnough n`
is `n ≤ max`, `IsLargeEnough n` is `min ≤ n`, and whose other two
predicates are constantly true, `ConstrainedSequences` yields exactly the
members of the set with length in `[min, max]`, in the input's ascending
order; and enumeration under `BaseConstraints` is `AllSequences` exactly. -/
theorem C6_length_window {values : List (List Nat)}
    (hchain : List.Chain' (fun a c => lexLt a c = true) ([] :: values))
    (hbytes : ∀ w ∈ values, ∀ x ∈ w, x < 256)
    (hcap : (values.map List.length).sum < 8388608)
    (lo hi : Nat) (hhi : 1 ≤ hi) (con : Constraints)
    (hS : ∀ n, con.IsSmallEnough n = decide (n ≤ hi))
    (hL : ∀ n, con.IsLargeEnough n = decide (lo ≤ n))
    (hV : ∀ d b, con.IsValueAllowed d b = true)
    (hQ : ∀ b, con.IsSequenceAllowed b = true) :
    ∃ m, FromChannel values = Except.ok m ∧
      AllSequences m = ConstrainedSequences m BaseConstraints ∧
      ConstrainedSequences m con =
        values.filter (fun s => decide (lo ≤ s.length) && decide (s.length ≤ hi)) := by
  obtain ⟨pool, root, hok, hmk, hstart, hwf, hmono, ht32, hlang⟩ :=
    FromChannel_ok hchain hbytes hcap
  refine ⟨pool ++ [root], hok, rfl, ?_⟩
  have hCS := ConstrainedSequences_eq hwf hV
  have hbound : ∀ tr ∈ Start (pool ++ [root]), ToState tr < (pool ++ [root]).length + 1 := by
    intro tr htr
    have htr' : tr ∈ (pool ++ [root]).getD ((pool ++ [root]).length - 1) [] := htr
    have h1 := Wf_dest_lt_length hwf tr htr'
    omega
  have hmem : ∀ x, x ∈ ConstrainedSequences (pool ++ [root]) con ↔
      (x ∈ values ∧ lo ≤ x.length ∧ x.length ≤ hi) := by
    intro x
    rw [hCS, mem_seqState hwf hV hQ _ _ hbound 0 [] x]
    constructor
    · rintro ⟨s, rfl, hacc, hLen, hSm⟩
      rw [hstart] at hacc
      have hxv : x ∈ values := (hlang x).mp hacc
      refine ⟨hxv, ?_, ?_⟩
      · rw [hL] at hLen
        simp at hLen
        omega
      · have hxlen : 1 ≤ x.length := by
          have hne : x ≠ [] := by
            intro hc
            rw [hc] at hacc
            exact Accepts_not_nil hacc
          exact List.length_pos.mpr hne
        by_cases h2 : 2 ≤ x.length
        · have h3 := hSm x.length h2 (Nat.le_refl _)
          rw [hS] at h3
          simp at h3
          omega
        · omega
    · rintro ⟨hxv, hlo, hhix⟩
      refine ⟨x, by simp, ?_, ?_, ?_⟩
      · rw [hstart]
        exact (hlang x).mpr hxv
      · rw [hL]
        simp
        omega
      · intro i h2 hle
        rw [hS]
        simp
        omega
  have hmonoS : TrigMono (Start (pool ++ [root])) := by
    have h1 : TrigMono ((pool ++ [root]).getD ((pool ++ [root]).length - 1) []) := hmono _
    exact h1
  have hsortCS : (ConstrainedSequences (pool ++ [root]) con).Pairwise
      (fun a b => lexLt a b = true) := by
    rw [hCS]
    exact (seqState_sorted hwf hV hmono _ _ hbound hmonoS 0 []).1
  have hsortV : values.Pairwise (fun a b => lexLt a b = true) := by
    apply pairwise_of_chain'
    cases values with
    | nil => exact trivial
    | cons v vs => exact (List.chain'_cons.mp hchain).2
  have hsortF : (values.filter
      (fun s => decide (lo ≤ s.length) && decide (s.length ≤ hi))).Pairwise
      (fun a b => lexLt a b = true) :=
    List.Pairwise.sublist (List.filter_sublist values) hsortV
  have hmemF : ∀ x, x ∈ ConstrainedSequences (pool ++ [root]) con ↔
      x ∈ values.filter (fun s => decide (lo ≤ s.length) && decide (s.length ≤ hi)) := by
    intro x
    rw [hmem x, List.mem_filter]
    simp
  exact sorted_eq_of_mem_iff hsortCS hsortF hmemF

/-- C6 (amended) at the window `[1, 1]` over the set `{"A", "AB"}`,
keeping exactly `"A"`. -/
theorem C6_length_window_witness :
    ∃ m, FromChannel [[65], [65, 66]] = Except.ok m ∧
      AllSequences m = ConstrainedSequences m BaseConstraints ∧
      ConstrainedSequences m (windowCon 1 1) =
        List.filter (fun s => decide (1 ≤ s.length) && decide (s.length ≤ 1))
          [[65], [65, 66]] :=
  C6_length_window
    (List.chain'_cons.mpr ⟨by decide,
      List.chain'_cons.mpr ⟨by decide, List.chain'_singleton _⟩⟩)
    (by decide) (by decide) 1 1 (Nat.le_refl 1) (windowCon 1 1)
    (fun _ => rfl) (fun _ => rfl) (fun _ _ => rfl) (fun _ => rfl)

end Mealy
